import Mathlib

/-!
Verification of the Day 10 Factory optimization engine

Shallow embedding of the button/slot machine solvers:

* `solve_machine_part1` — Gaussian elimination over GF(2) plus free-variable
  enumeration (`day10_complete.py`, lines 27–84);
* `find_min_presses` / `apply_buttons` — exhaustive toggle search
  (`day10_factory.py`, lines 44–83);
* `heuristic` / `astar_min_presses` — best-first counter search
  (`day10_part2.py`, lines 42–113);
* `greedy_min_presses` — greedy accumulation solver
  (`day10_part2_greedy.py`, lines 38–95);
* `solve_machine_part2` — the exact integer-program backend
  (`day10_complete.py`, lines 86–116; the `scipy.optimize.milp` call is
  modelled as an exact optimizer);
* `parse_machine` / `solve_factory` — line parsing and the batch driver
  (`day10_factory.py`, lines 19–41 and 86–111).

Machine integers are embedded as `Nat`/`Int`; Python exceptions (IndexError on
out-of-range slot indices, ValueError on tuple unpacking) are embedded as
`Except`/`Option` failure values.  Loops whose iteration count is not
structural take an explicit fuel argument; running out of fuel yields `none`,
which no theorem below ever treats as a program result.
-/

namespace Day10

/-! ## Generic list helpers shared by the embeddings -/

/-- Minimum of a list accumulated exactly like the Python
`min_presses = min(min_presses, w)` loops; the `[]` case corresponds to the
`float('inf')` start value never being replaced (callers below either prove the
list nonempty or, as in `find_min_presses`, coerce `inf` to `0`). -/
def listMin0 : List Nat → Nat
  | [] => 0
  | w :: ws => ws.foldl min w

/-- All 0/1 assignments of `k` binary decisions, as lists of booleans; this
enumerates the same set as Python's `for mask in range(1 << k)`. -/
def allBools : Nat → List (List Bool)
  | 0 => [[]]
  | k + 1 => (allBools k).map (List.cons false) ++ (allBools k).map (List.cons true)

/-- XOR-accumulation of `f c && g c` over the column window `lo ≤ c < lo + len`,
the shape of every GF(2) dot product in the Python code. -/
def dotXor (f g : Nat → Bool) : Nat → Nat → Bool
  | _, 0 => false
  | lo, len + 1 => xor (dotXor f g lo len) (f (lo + len) && g (lo + len))

/-- Number of `true` entries of `sol` among positions `< n`
(Python's `sum(solution)`). -/
def weightF (sol : Nat → Bool) : Nat → Nat
  | 0 => 0
  | n + 1 => weightF sol n + (if sol n then 1 else 0)

/-! ## GF(2) toggle solver (`day10_complete.py::solve_machine_part1`)

The `m × (n+1)` augmented bit matrix is embedded as a total function
`Nat → Nat → Bool`; entries outside the `m` rows and `n+1` columns of the
Python list-of-lists are never read by the algorithm. -/

/-- Lines 37–41: row `i`, column `j < n` is `1 if i in buttons[j] else 0`;
column `n` is the target bit. -/
def mat0 (buttons : List (List Nat)) (target : List Bool) (i j : Nat) : Bool :=
  if j = buttons.length then target.getD i false
  else decide (i ∈ buttons.getD j [])

/-- Line 57: swap rows `a` and `b`. -/
def swapRows (mat : Nat → Nat → Bool) (a b : Nat) : Nat → Nat → Bool :=
  fun r c => if r = a then mat b c else if r = b then mat a c else mat r c

/-- Lines 48–52: the first row `r` with `row ≤ r < m` and a `1` in `col`. -/
def findPivot (mat : Nat → Nat → Bool) (col row m : Nat) : Option Nat :=
  (List.range' row (m - row)).find? (fun r => mat r col)

/-- Elimination state: current matrix, next pivot row, pivot columns so far. -/
structure ElimSt where
  mat : Nat → Nat → Bool
  row : Nat
  pivots : List Nat

/-- Lines 46–64, one iteration of `for col in range(n_buttons)`: find a pivot
at or below `row`; if none the column is free; otherwise swap it up and XOR the
pivot row into every other row (among the `m` real rows) with a `1` in `col`. -/
def stepCol (m : Nat) (st : ElimSt) (col : Nat) : ElimSt :=
  match findPivot st.mat col st.row m with
  | none => st
  | some pr =>
    let m1 := swapRows st.mat st.row pr
    let m2 := fun r c =>
      if r < m ∧ r ≠ st.row ∧ m1 r col = true then xor (m1 r c) (m1 st.row c)
      else m1 r c
    ⟨m2, st.row + 1, st.pivots ++ [col]⟩

/-- The elimination loop after processing columns `0, …, c-1`. -/
def elimCols (m : Nat) (buttons : List (List Nat)) (target : List Bool) : Nat → ElimSt
  | 0 => ⟨mat0 buttons target, 0, []⟩
  | c + 1 => stepCol m (elimCols m buttons target c) c

/-- Lines 71–73: seed the solution with the mask bits on the free columns. -/
def assignFree : List Nat → List Bool → (Nat → Bool) → (Nat → Bool)
  | [], _, sol => sol
  | _, [], sol => sol
  | c :: cs, b :: bs, sol => assignFree cs bs (Function.update sol c b)

/-- Lines 75–79: back-substitution; for the `i`-th pivot column `pc`,
`solution[pc] = matrix[i][-1] ⊕ ⊕_{c > pc} matrix[i][c] * solution[c]`. -/
def backSub (mat : Nat → Nat → Bool) (nb : Nat) : List Nat → Nat → (Nat → Bool) → (Nat → Bool)
  | [], _, sol => sol
  | pc :: rest, i, sol =>
    let v := xor (mat i nb) (dotXor (mat i) sol (pc + 1) (nb - (pc + 1)))
    backSub mat nb rest (i + 1) (Function.update sol pc v)

/-- `day10_complete.py` lines 27–84: Gaussian elimination over GF(2) followed by
enumeration of all free-variable assignments, returning the minimum weight. -/
def solve_machine_part1 (buttons : List (List Nat)) (target : List Bool) : Nat :=
  let nb := buttons.length
  let m := target.length
  let st := elimCols m buttons target nb
  let free := (List.range nb).filter (fun c => !st.pivots.contains c)
  let weights := (allBools free.length).map fun mask =>
    weightF (backSub st.mat nb st.pivots 0 (assignFree free mask (fun _ => false))) nb
  listMin0 weights

/-! ### Toggle semantics

`comboLight buttons x i` is the state of light `i` after pressing, once each,
every button `j` with `x j = true`: the XOR over `j` of "button `j` touches
light `i`".  This is the row evaluation of the unreduced system. -/

/-- State of light `i` under the 0/1 press decision `x`. -/
def comboLight (buttons : List (List Nat)) (x : Nat → Bool) (i : Nat) : Bool :=
  dotXor (fun j => decide (i ∈ buttons.getD j [])) x 0 buttons.length

/-- The press combination `x` (one boolean per button) reproduces the binary
target pattern exactly. -/
def SolvesL (buttons : List (List Nat)) (target : List Bool) (x : List Bool) : Prop :=
  ∀ i < target.length, comboLight buttons (fun j => x.getD j false) i = target.getD i false

instance (buttons : List (List Nat)) (target : List Bool) (x : List Bool) :
    Decidable (SolvesL buttons target x) :=
  Nat.decidableBallLT _ _

/-- Number of pressed buttons in a 0/1 combination. -/
def pressWeight (x : List Bool) : Nat := x.count true

/-! ### Solution sets of augmented matrices and their preservation -/

/-- `x` solves the augmented system `A`: for each of the `m` rows, the GF(2)
dot product of the coefficient part with `x` equals the augmented entry. -/
def SolvesA (m nb : Nat) (A : Nat → Nat → Bool) (x : Nat → Bool) : Prop :=
  ∀ r < m, dotXor (A r) x 0 nb = A r nb

/-! ### The row-echelon invariant of the elimination loop

After the columns `0, …, c-1` of `for col in range(n_buttons)` have been
processed: each recorded pivot column has a `1` in its pivot row and `0`
everywhere else, pivot rows are zero left of their pivot, rows at or below the
working row are zero on all processed columns, and every row operation so far
has preserved the solution set of the original augmented system. -/
structure ElimInv (m nb c : Nat) (A0 : Nat → Nat → Bool) (st : ElimSt) : Prop where
  rowEq : st.row = st.pivots.length
  rowLe : st.row ≤ m
  pivLt : ∀ p ∈ st.pivots, p < c
  pivSorted : st.pivots.Pairwise (· < ·)
  diag : ∀ i, i < st.pivots.length → st.mat i (st.pivots.getD i 0) = true
  offdiag : ∀ i, i < st.pivots.length → ∀ r, r < m → r ≠ i →
    st.mat r (st.pivots.getD i 0) = false
  leftz : ∀ i, i < st.pivots.length → ∀ c2, c2 < st.pivots.getD i 0 → st.mat i c2 = false
  lowz : ∀ r, st.row ≤ r → r < m → ∀ c2, c2 < c → st.mat r c2 = false
  pres : ∀ x, SolvesA m nb A0 x ↔ SolvesA m nb st.mat x

/-! ### The reduced system after the full elimination pass -/

/-- The elimination state after the whole `for col in range(n_buttons)` loop. -/
def elimFinal (buttons : List (List Nat)) (target : List Bool) : ElimSt :=
  elimCols target.length buttons target buttons.length

/-- Line 67: the columns that received no pivot. -/
def freeCols (buttons : List (List Nat)) (target : List Bool) : List Nat :=
  (List.range buttons.length).filter (fun c => !(elimFinal buttons target).pivots.contains c)

/-- The press count produced by one free-variable mask (lines 70–81). -/
def maskWeight (buttons : List (List Nat)) (target : List Bool) (mask : List Bool) : Nat :=
  weightF
    (backSub (elimFinal buttons target).mat buttons.length (elimFinal buttons target).pivots 0
      (assignFree (freeCols buttons target) mask (fun _ => false)))
    buttons.length

/-! ## Exhaustive toggle search (`day10_factory.py`)

`lights[light_idx] = not lights[light_idx]` raises `IndexError` when the index
is out of range; the embedding returns `none` in that case. -/

/-- One `lights[light_idx] = not lights[light_idx]` toggle (line 55). -/
def toggleLight (lights : List Bool) (i : Nat) : Option (List Bool) :=
  if h : i < lights.length then some (lights.set i (!(lights.get ⟨i, h⟩))) else none

/-- Lines 54–55: toggle every light of one pressed button, in order. -/
def applyButton (lights : List Bool) : List Nat → Option (List Bool)
  | [] => some lights
  | i :: rest =>
    match toggleLight lights i with
    | none => none
    | some l2 => applyButton l2 rest

/-- The inner loop of `apply_buttons`, running over the `(should_press, button)`
pairs in order. -/
def applyCombo : List (Bool × List Nat) → List Bool → Option (List Bool)
  | [], lights => some lights
  | (press, b) :: rest, lights =>
    if press then
      match applyButton lights b with
      | none => none
      | some l2 => applyCombo rest l2
    else applyCombo rest lights

/-- `day10_factory.py` lines 44–57: apply a 0/1 press combination to the
all-off light row. -/
def apply_buttons (combination : List Bool) (buttons : List (List Nat))
    (num_lights : Nat) : Option (List Bool) :=
  applyCombo (combination.zip buttons) (List.replicate num_lights false)

/-- Lines 70–82 of `find_min_presses`: run every combination in turn, keeping
the weights of those whose light row equals the target; `none` is a raised
`IndexError`. -/
def find_go (target : List Bool) (buttons : List (List Nat)) (num_lights : Nat) :
    List (List Bool) → Option (List Nat)
  | [] => some []
  | combo :: rest =>
    match apply_buttons combo buttons num_lights with
    | none => none
    | some res =>
      match find_go target buttons num_lights rest with
      | none => none
      | some ws => some (if res = target then pressWeight combo :: ws else ws)

/-- `day10_factory.py` lines 60–83: minimum weight over all `2^n` press
combinations that reproduce the target, with the `float('inf')` no-solution
case coerced to `0` (line 83). -/
def find_min_presses (target : List Bool) (buttons : List (List Nat))
    (num_lights : Nat) : Option Nat :=
  (find_go target buttons num_lights (allBools buttons.length)).map listMin0

/-- GF(2) contribution of an ordered list of `(pressed, button)` pairs to one
light. -/
def pairsParity : List (Bool × List Nat) → Nat → Bool
  | [], _ => false
  | (press, b) :: rest, j => xor (press && decide (j ∈ b)) (pairsParity rest j)

/-! ## Informed search solver (`day10_part2.py`)

States are counter-value lists.  The priority queue is embedded as a plain
list of `(est, presses, state)` entries from which the minimum under Python's
lexicographic tuple order is extracted (`heapq` pops exactly that minimum, and
equal tuples are indistinguishable); the visited dict is an association list
whose newest binding wins.  `new_state[counter_idx] += 1` raises `IndexError`
on an out-of-range index, embedded as `Except.error`. -/

/-- Python tuple comparison on the state component (same-length int tuples). -/
def stateLtB : List Nat → List Nat → Bool
  | [], [] => false
  | [], _ :: _ => true
  | _ :: _, [] => false
  | a :: as2, b :: bs2 => if a < b then true else if b < a then false else stateLtB as2 bs2

/-- Python comparison of `(est, presses, state)` heap entries. -/
def entryLtB (e1 e2 : Nat × Nat × List Nat) : Bool :=
  if e1.1 < e2.1 then true
  else if e2.1 < e1.1 then false
  else if e1.2.1 < e2.2.1 then true
  else if e2.2.1 < e1.2.1 then false
  else stateLtB e1.2.2 e2.2.2

/-- Minimum entry of a nonempty heap under `entryLtB`. -/
def minEntry : Nat × Nat × List Nat → List (Nat × Nat × List Nat) → Nat × Nat × List Nat
  | e, [] => e
  | e, f :: rest => minEntry (if entryLtB f e then f else e) rest

/-- `heapq.heappop`: remove and return the minimum entry. -/
def popMin : List (Nat × Nat × List Nat) →
    Option ((Nat × Nat × List Nat) × List (Nat × Nat × List Nat))
  | [] => none
  | e :: rest =>
    let m := minEntry e rest
    some (m, (e :: rest).eraseP (fun x => x == m))

/-- Lines 42–48: `sum(max(0, targets[i] - state[i]) for i in range(len(state)))`. -/
def heuristic (state targets : List Nat) : Nat :=
  ((List.range state.length).map fun i => targets.getD i 0 - state.getD i 0).sum

/-- Lines 89–100: press one button from `state`; each touched counter is
incremented and immediately checked against its target.  `.error` is the
`IndexError` raised by `new_state[counter_idx] += 1`; `.ok none` is the pruned
(`valid = False`) case. -/
def pressButton (targets : List Nat) : List Nat → List Nat → Except Unit (Option (List Nat))
  | ns, [] => Except.ok (some ns)
  | ns, idx :: rest =>
    if h : idx < ns.length then
      let ns2 := ns.set idx (ns.get ⟨idx, h⟩ + 1)
      if ns2.getD idx 0 > targets.getD idx 0 then Except.ok none
      else pressButton targets ns2 rest
    else Except.error ()

/-- Python dict lookup on the visited table. -/
def lookupV (s : List Nat) (v : List (List Nat × Nat)) : Option Nat := v.lookup s

/-- Lines 87–110, `for button in buttons`: generate the successors of the
popped state, updating the visited table and pushing improved entries; the
position index `j` tracks which button of the original list is being pressed. -/
def expand (targets : List Nat) (presses : Nat) (state : List Nat) :
    List (List Nat) → List (Nat × Nat × List Nat) → List (List Nat × Nat) →
    Except Unit (List (Nat × Nat × List Nat) × List (List Nat × Nat))
  | [], heap, visited => Except.ok (heap, visited)
  | button :: rest, heap, visited =>
    match pressButton targets state button with
    | Except.error _ => Except.error ()
    | Except.ok none => expand targets presses state rest heap visited
    | Except.ok (some ns) =>
      match lookupV ns visited with
      | some g =>
        if g > presses + 1 then
          expand targets presses state rest
            (heap ++ [(presses + 1 + heuristic ns targets, presses + 1, ns)])
            ((ns, presses + 1) :: visited)
        else expand targets presses state rest heap visited
      | none =>
        expand targets presses state rest
          (heap ++ [(presses + 1 + heuristic ns targets, presses + 1, ns)])
          ((ns, presses + 1) :: visited)

/-- Result of one iteration of the `while heap:` loop. -/
inductive AstarStep where
  | done (r : Except Unit Int)
  | cont (heap : List (Nat × Nat × List Nat)) (visited : List (List Nat × Nat))

/-- Line 83: `state in visited and visited[state] < presses`. -/
def staleB (state : List Nat) (visited : List (List Nat × Nat)) (presses : Nat) : Bool :=
  match lookupV state visited with
  | some g => decide (g < presses)
  | none => false

/-- Lines 75–110: pop the minimum entry; return its press count at the goal;
skip stale entries; otherwise expand. -/
def astarStep (targets : List Nat) (buttons : List (List Nat))
    (heap : List (Nat × Nat × List Nat)) (visited : List (List Nat × Nat)) : AstarStep :=
  match popMin heap with
  | none => AstarStep.done (Except.ok (-1))
  | some ((_, presses, state), heap2) =>
    if state = targets then AstarStep.done (Except.ok (presses : Int))
    else if staleB state visited presses then AstarStep.cont heap2 visited
    else
      match expand targets presses state buttons heap2 visited with
      | Except.error _ => AstarStep.done (Except.error ())
      | Except.ok (h2, v2) => AstarStep.cont h2 v2

/-- The search loop, with explicit fuel; `none` means the fuel ran out (an
artifact of the embedding, never a program result). -/
def astarLoop (targets : List Nat) (buttons : List (List Nat)) :
    Nat → List (Nat × Nat × List Nat) → List (List Nat × Nat) →
    Option (Except Unit Int)
  | 0, _, _ => none
  | fuel + 1, heap, visited =>
    match astarStep targets buttons heap visited with
    | AstarStep.done r => some r
    | AstarStep.cont h2 v2 => astarLoop targets buttons fuel h2 v2

/-- `day10_part2.py` lines 51–113. -/
def astar_min_presses (fuel : Nat) (targets : List Nat) (buttons : List (List Nat))
    (num_counters : Nat) : Option (Except Unit Int) :=
  let start := List.replicate num_counters 0
  if start = targets then some (Except.ok 0)
  else
    astarLoop targets buttons fuel
      [(heuristic start targets, 0, start)] [(start, 0)]

/-! ### Press-sequence semantics

A press sequence is a list of button indices; a press is legal exactly when
the code's own `pressButton` accepts it (all indices in range, no counter
pushed past its target). -/

/-- Run a sequence of button presses from state `s`; `none` if any press is
out of range, pruned, or the index is not a button. -/
def runSeq (targets : List Nat) (buttons : List (List Nat)) :
    List Nat → List Nat → Option (List Nat)
  | s, [] => some s
  | s, j :: rest =>
    if j < buttons.length then
      match pressButton targets s (buttons.getD j []) with
      | Except.ok (some ns) => runSeq targets buttons ns rest
      | _ => none
    else none

/-- State `s` is reachable from the all-zero start in exactly `g` legal
presses. -/
def ReachedBy (targets : List Nat) (buttons : List (List Nat)) (s : List Nat)
    (g : Nat) : Prop :=
  ∃ seq : List Nat, seq.length = g ∧
    runSeq targets buttons (List.replicate targets.length 0) seq = some s

/-- Every component of `s` is at most the corresponding target component. -/
def BoundedState (s targets : List Nat) : Prop :=
  ∀ i, s.getD i 0 ≤ targets.getD i 0

/-! ### The bounded-state invariant of the search -/

/-- The loop configurations traversed by `astar_min_presses`: `astarIter n`
returns the heap and visited table after `n` iterations of the `while heap:`
loop (and `none` once the loop has returned). -/
def astarIter (targets : List Nat) (buttons : List (List Nat)) :
    Nat → List (Nat × Nat × List Nat) → List (List Nat × Nat) →
    Option (List (Nat × Nat × List Nat) × List (List Nat × Nat))
  | 0, heap, visited => some (heap, visited)
  | n + 1, heap, visited =>
    match astarStep targets buttons heap visited with
    | AstarStep.done _ => none
    | AstarStep.cont h2 v2 => astarIter targets buttons n h2 v2

/-! ## Greedy solver (`day10_part2_greedy.py`)

`current[counter_idx]` raises `IndexError` on an out-of-range index (embedded
as `Except.error`); an ineligible (overshooting) button scores `none`. -/

/-- Lines 61–73: walk one button's counters, accumulating `helps_count` and
`total_help`; `.ok none` is the `would_overshoot` break, the final score is
`helps_count * 100 + total_help` (line 80). -/
def scoreAux (targets current : List Nat) : List Nat → Nat → Nat → Except Unit (Option Nat)
  | [], helps, total => Except.ok (some (helps * 100 + total))
  | ci :: rest, helps, total =>
    if ci < current.length then
      if current.getD ci 0 ≥ targets.getD ci 0 then Except.ok none
      else if current.getD ci 0 < targets.getD ci 0 then
        scoreAux targets current rest (helps + 1)
          (total + min 1 (targets.getD ci 0 - current.getD ci 0))
      else scoreAux targets current rest helps total
    else Except.error ()

/-- Line 82: `score > best_score`; `best_score` starts at `-1`, so any score
beats an empty best. -/
def betterThan (sc : Nat) (best : Option (Nat × Nat)) : Bool :=
  match best with
  | none => true
  | some pr => decide (sc > pr.2)

/-- Lines 55–84: scan the buttons in order keeping the first strictly-best
score. -/
def pickBest (targets current : List Nat) :
    List (List Nat) → Nat → Option (Nat × Nat) → Except Unit (Option Nat)
  | [], _, best => Except.ok (best.map Prod.fst)
  | b :: rest, idx, best =>
    match scoreAux targets current b 0 0 with
    | Except.error _ => Except.error ()
    | Except.ok none => pickBest targets current rest (idx + 1) best
    | Except.ok (some sc) =>
      pickBest targets current rest (idx + 1)
        (if betterThan sc best then some (idx, sc) else best)

/-- Lines 91–92: `current[counter_idx] += 1` for each counter of the chosen
button (no overshoot check here). -/
def bumpAll : List Nat → List Nat → Option (List Nat)
  | cur, [] => some cur
  | cur, ci :: rest =>
    if h : ci < cur.length then bumpAll (cur.set ci (cur.get ⟨ci, h⟩ + 1)) rest
    else none

/-- Lines 54–93, the `while current != targets` loop, with explicit fuel. -/
def greedyLoop (targets : List Nat) (buttons : List (List Nat)) :
    Nat → List Nat → Nat → Option (Except Unit Int)
  | 0, _, _ => none
  | fuel + 1, current, presses =>
    if current = targets then some (Except.ok (presses : Int))
    else
      match pickBest targets current buttons 0 none with
      | Except.error _ => some (Except.error ())
      | Except.ok none => some (Except.ok (-1))
      | Except.ok (some bi) =>
        match bumpAll current (buttons.getD bi []) with
        | none => some (Except.error ())
        | some cur2 => greedyLoop targets buttons fuel cur2 (presses + 1)

/-- `day10_part2_greedy.py` lines 38–95. -/
def greedy_min_presses (fuel : Nat) (targets : List Nat) (buttons : List (List Nat))
    (num_counters : Nat) : Option (Except Unit Int) :=
  greedyLoop targets buttons fuel (List.replicate num_counters 0) 0

/-! ## Exact accumulation solver (`day10_complete.py::solve_machine_part2`)

Lines 94–99 build the incidence matrix `A` with the defensive clip
`if counter < n_counters`; lines 111–116 hand `min 1ᵀx, A x = targets,
x ≥ 0 ∈ ℤ` to `scipy.optimize.milp` and return the rounded optimum, or `-1`
on failure. -/

/-- Row `i` of `A · x`: the total contribution of the press counts `x` to
counter `i`, with out-of-range counters clipped out of `A` (lines 94–99). -/
def dotCount (m : Nat) (buttons : List (List Nat)) (x : List Nat) (i : Nat) : Nat :=
  ((List.range buttons.length).map fun j =>
    if i ∈ buttons.getD j [] ∧ i < m then x.getD j 0 else 0).sum

/-- `x` is a feasible point of the integer program: one non-negative press
count per button, meeting every counter target exactly. -/
def FeasibleILP (buttons : List (List Nat)) (targets : List Nat) (x : List Nat) : Prop :=
  x.length = buttons.length ∧
    ∀ i < targets.length, dotCount targets.length buttons x i = targets.getD i 0

instance (buttons : List (List Nat)) (targets : List Nat) (x : List Nat) :
    Decidable (FeasibleILP buttons targets x) := by
  unfold FeasibleILP
  exact instDecidableAnd

/-- All press-count vectors of length `n` with every entry `< bound`. -/
def allVecs : Nat → Nat → List (List Nat)
  | 0, _ => [[]]
  | n + 1, bound => ((List.range bound).map fun v => (allVecs n bound).map (List.cons v)).flatten

/-- Modelled from the spec: the `scipy.optimize.milp` call (lines 111–112 of
`day10_complete.py`) is external to the repository; per §4.2 of the spec it
returns the exact optimum of the integer program or reports failure when
infeasible, whereupon line 116 returns `-1`.  Every feasible point is
dominated by one with all components `≤ targets.sum`, so the optimum is
computed by bounded enumeration. -/
def solve_machine_part2 (buttons : List (List Nat)) (targets : List Nat) : Int :=
  let feas := (allVecs buttons.length (targets.sum + 1)).filter
    fun x => decide (FeasibleILP buttons targets x)
  if feas.isEmpty then -1
  else ((listMin0 (feas.map fun x => x.sum) : Nat) : Int)

/-! ### A legal press sequence induces a feasible integer-program point -/

/-- Occurrences of `v` in a list. -/
def countOcc (v : Nat) : List Nat → Nat
  | [] => 0
  | a :: l => countOcc v l + (if a = v then 1 else 0)

/-- Total increments a press sequence delivers to counter `i`. -/
def contribSeq (buttons : List (List Nat)) : List Nat → Nat → Nat
  | [], _ => 0
  | j :: rest, i => countOcc i (buttons.getD j []) + contribSeq buttons rest i

/-! ### Line parsing: the regex scanners of day10_factory.py / day10_complete.py -/

/-- Character class `[.#]`. -/
def isDotHash (c : Char) : Bool := c = '.' || c = '#'

/-- Character class `[0-9,]`. -/
def isDigitComma (c : Char) : Bool := c.isDigit || c = ','

/-- Maximal prefix of characters satisfying `p`, together with the remainder. -/
def takeRun (p : Char → Bool) : List Char → List Char × List Char
  | [] => ([], [])
  | c :: rest =>
    if p c then
      let r := takeRun p rest
      (c :: r.1, r.2)
    else ([], c :: rest)

/-- `re.search` for a pattern `op (cls+) cl` where neither delimiter belongs to
the class `cls`: the leftmost occurrence of the opening delimiter followed by a
non-empty maximal class run and the closing delimiter.  Because the closing
delimiter is outside the class, the regex engine's greedy run with backtracking
matches exactly when the maximal run is followed by the closer, so a failed
start position just advances the search by one character. -/
def scanGroup (op cl : Char) (p : Char → Bool) : List Char → Option (List Char)
  | [] => none
  | c :: rest =>
    if c = op then
      let tr := takeRun p rest
      if tr.1 ≠ [] ∧ tr.2.head? = some cl then some tr.1
      else scanGroup op cl p rest
    else scanGroup op cl p rest

/-- `re.findall` for the same shape of pattern: repeated leftmost matches, each
search resuming right after the previous match's closing delimiter.  Fuel is
the line length plus one, which the termination argument of the scan never
exhausts on its own input. -/
def scanAllF (op cl : Char) (p : Char → Bool) : Nat → List Char → List (List Char)
  | 0, _ => []
  | _ + 1, [] => []
  | fuel + 1, c :: rest =>
    if c = op then
      let tr := takeRun p rest
      if tr.1 ≠ [] ∧ tr.2.head? = some cl then tr.1 :: scanAllF op cl p fuel tr.2.tail
      else scanAllF op cl p fuel rest
    else scanAllF op cl p fuel rest

def scanAll (op cl : Char) (p : Char → Bool) (l : List Char) : List (List Char) :=
  scanAllF op cl p (l.length + 1) l

/-- Python `str.split(',')`. -/
def splitComma : List Char → List (List Char)
  | [] => [[]]
  | c :: rest =>
    if c = ',' then [] :: splitComma rest
    else
      match splitComma rest with
      | [] => [[c]]
      | piece :: pieces => (c :: piece) :: pieces

def digitsToNat : List Char → Nat → Nat
  | [], acc => acc
  | c :: rest, acc => digitsToNat rest (acc * 10 + (c.toNat - 48))

/-- Python `int(s)` on a piece cut from a `[0-9,]+` group: succeeds on a
non-empty all-digit string, raises `ValueError` (here `none`) otherwise, in
particular on the empty string. -/
def pyInt (l : List Char) : Option Nat :=
  if l ≠ [] ∧ l.all Char.isDigit then some (digitsToNat l 0) else none

/-- `[int(x) for x in s.split(',')]`, propagating `ValueError`. -/
def parseIntList (l : List Char) : Option (List Nat) :=
  (splitComma l).foldr
    (fun piece acc =>
      match pyInt piece, acc with
      | some v, some vs => some (v :: vs)
      | _, _ => none)
    (some [])

/-- The button groups: `[int(x) for x in b.split(',')]` over every
`\(([0-9,]+)\)` match, propagating `ValueError`. -/
def parseButtonStrs : List (List Char) → Option (List (List Nat))
  | [] => some []
  | s :: rest =>
    match parseIntList s, parseButtonStrs rest with
    | some b, some bs => some (b :: bs)
    | _, _ => none

/-- Result of `day10_factory.py`'s `parse_machine`: `nonePair` is the
two-element `return None, None` taken when the `\[([.#]+)\]` search fails,
`err` is a raised `ValueError` from `int`, and `ok` carries the successful
three-element return. -/
inductive FacParse where
  | nonePair : FacParse
  | err : FacParse
  | ok : List Bool → List (List Nat) → Nat → FacParse
deriving DecidableEq

/-- `day10_factory.py` lines 19–41. -/
def parse_machine (line : List Char) : FacParse :=
  match scanGroup '[' ']' isDotHash line with
  | none => FacParse.nonePair
  | some pat =>
    let target := pat.map fun c => decide (c = '#')
    match parseButtonStrs (scanAll '(' ')' isDigitComma line) with
    | none => FacParse.err
    | some buttons => FacParse.ok target buttons target.length

/-- Python whitespace for `str.strip`. -/
def isPySpace (c : Char) : Bool := c = ' ' || c = '\t' || c = '\n' || c = '\r'

/-- Python `str.strip()`. -/
def pyStrip (l : List Char) : List Char :=
  ((l.dropWhile isPySpace).reverse.dropWhile isPySpace).reverse

/-- `day10_factory.py` lines 93–109, `solve_factory`, over the stripped lines
of the file.  The three-name unpacking `target, buttons, num_lights =
parse_machine(line)` raises `ValueError` (here `Except.error ()`) when
`parse_machine` returns the two-element `None, None`, before the
`if target is None: continue` guard can run; an in-parse `ValueError` or an
`IndexError` inside `find_min_presses` also propagates. -/
def solve_factory_go (total machines : Nat) :
    List (List Char) → Except Unit (Nat × Nat)
  | [] => Except.ok (total, machines)
  | line :: rest =>
    let l := pyStrip line
    if l = [] then solve_factory_go total machines rest
    else
      match parse_machine l with
      | FacParse.nonePair => Except.error ()
      | FacParse.err => Except.error ()
      | FacParse.ok target buttons numLights =>
        match find_min_presses target buttons numLights with
        | none => Except.error ()
        | some mp => solve_factory_go (total + mp) (machines + 1) rest

def solve_factory (fileLines : List (List Char)) : Except Unit (Nat × Nat) :=
  solve_factory_go 0 0 fileLines

/-- `day10_complete.py` lines 14–25, `parse_line`: the indicator search
degrades to the empty string on failure, but the `\{([0-9,]+)\}` joltage
search failing leaves `joltage_match = None`, and `.group(1)` on it raises
`AttributeError` (here `Except.error ()`); `int` failures raise `ValueError`. -/
def parse_line (line : List Char) :
    Except Unit (List Char × List (List Nat) × List Nat) :=
  let indicator := (scanGroup '[' ']' isDotHash line).getD []
  match parseButtonStrs (scanAll '(' ')' isDigitComma line) with
  | none => Except.error ()
  | some buttons =>
    match scanGroup (Char.ofNat 123) (Char.ofNat 125) isDigitComma line with
    | none => Except.error ()
    | some jolt =>
      match parseIntList jolt with
      | none => Except.error ()
      | some targets => Except.ok (indicator, buttons, targets)

/-- A line with no `[...]` group at all: `(0)`. -/
def facBadLine : List Char := ['(', '0', ')']

/-- A well-formed factory line, `[#] (0)`; it lacks a `{...}` group, which
`day10_factory.py` never asks for but `day10_complete.py`'s `parse_line`
requires. -/
def facGoodLine : List Char := ['[', '#', ']', ' ', '(', '0', ')']

/-! ### The finite state space of the search and its termination potential

Every state the search materializes is componentwise bounded by the targets,
so the state space is finite; the `while heap:` loop terminates because each
iteration either only pops, or pays for every push by strictly decreasing a
visited entry.  `allStates` enumerates the bounded state space, `visPot` sums
the per-state potentials of the visited table, and `astarFuel` is a fuel
budget every run of the loop stays strictly under. -/

/-- All counter-value lists componentwise bounded by `ts` (and of its
length). -/
def allStates : List Nat → List (List Nat)
  | [] => [[]]
  | t :: ts => (List.range (t + 1)).flatMap fun v => (allStates ts).map fun s => v :: s

/-- Potential of one state under the visited table: its stored press count,
or `S + 1` while unvisited (`S` bounds every count the search can store). -/
def statePot (S : Nat) (visited : List (List Nat × Nat)) (s : List Nat) : Nat :=
  (lookupV s visited).getD (S + 1)

/-- Total potential of the visited table over the bounded state space. -/
def visPot (S : Nat) (targets : List Nat) (visited : List (List Nat × Nat)) : Nat :=
  ((allStates targets).map (statePot S visited)).sum

/-- A fuel budget strictly above the initial loop potential, hence enough for
the search loop to run to its own return. -/
def astarFuel (targets : List Nat) : Nat :=
  2 + (targets.sum + 1) * (allStates targets).length

/-! ### Basic facts about `dotXor`, `weightF`, `allBools`, `listMin0` -/

theorem dotXor_congr_left {f u g : Nat → Bool} {lo len : Nat}
    (h : ∀ c, lo ≤ c → c < lo + len → f c = u c) :
    dotXor f g lo len = dotXor u g lo len := by
  induction len with
  | zero => rfl
  | succ n ih =>
    simp only [dotXor]
    rw [ih fun c h1 h2 => h c h1 (by omega), h (lo + n) (by omega) (by omega)]

theorem dotXor_congr_support {f g g' : Nat → Bool} {lo len : Nat}
    (h : ∀ c, lo ≤ c → c < lo + len → f c = true → g c = g' c) :
    dotXor f g lo len = dotXor f g' lo len := by
  induction len with
  | zero => rfl
  | succ n ih =>
    simp only [dotXor]
    rw [ih fun c h1 h2 => h c h1 (by omega)]
    rcases hf : f (lo + n) with _ | _
    · simp
    · rw [h (lo + n) (by omega) (by omega) hf]

theorem dotXor_eq_false {f g : Nat → Bool} {lo len : Nat}
    (h : ∀ c, lo ≤ c → c < lo + len → f c = false) :
    dotXor f g lo len = false := by
  induction len with
  | zero => rfl
  | succ n ih =>
    simp only [dotXor]
    rw [ih fun c h1 h2 => h c h1 (by omega), h (lo + n) (by omega) (by omega)]
    rfl

theorem dotXor_split (f g : Nat → Bool) (lo len1 len2 : Nat) :
    dotXor f g lo (len1 + len2) =
      xor (dotXor f g lo len1) (dotXor f g (lo + len1) len2) := by
  induction len2 with
  | zero => simp [dotXor]
  | succ n ih =>
    have : len1 + (n + 1) = (len1 + n) + 1 := by omega
    rw [this]
    simp only [dotXor]
    rw [ih]
    have : lo + (len1 + n) = lo + len1 + n := by omega
    rw [this, Bool.xor_assoc]

theorem dotXor_xor_rows {f1 f2 g : Nat → Bool} {lo len : Nat} :
    dotXor (fun c => xor (f1 c) (f2 c)) g lo len =
      xor (dotXor f1 g lo len) (dotXor f2 g lo len) := by
  induction len with
  | zero => rfl
  | succ n ih =>
    simp only [dotXor]
    rw [ih]
    cases f1 (lo + n) <;> cases f2 (lo + n) <;> cases g (lo + n) <;>
      cases dotXor f1 g lo n <;> cases dotXor f2 g lo n <;> rfl

theorem weightF_congr {s u : Nat → Bool} {n : Nat}
    (h : ∀ c < n, s c = u c) : weightF s n = weightF u n := by
  induction n with
  | zero => rfl
  | succ k ih =>
    simp only [weightF]
    rw [ih fun c hc => h c (by omega), h k (by omega)]

theorem allBools_ne_nil (k : Nat) : allBools k ≠ [] := by
  induction k with
  | zero => simp [allBools]
  | succ n ih =>
    intro h
    simp only [allBools] at h
    rcases List.append_eq_nil.mp h with ⟨h1, _⟩
    exact ih (List.map_eq_nil_iff.mp h1)

theorem mem_allBools_of_length {k : Nat} {l : List Bool} : l.length = k → l ∈ allBools k := by
  induction k generalizing l with
  | zero => intro h; simp [List.length_eq_zero.mp h, allBools]
  | succ n ih =>
    intro h
    match l with
    | b :: t =>
      have ht : t ∈ allBools n := ih (by simpa using h)
      cases b
      · exact List.mem_append_left _ (List.mem_map_of_mem _ ht)
      · exact List.mem_append_right _ (List.mem_map_of_mem _ ht)

theorem foldl_min_le_init : ∀ (ws : List Nat) (w : Nat), ws.foldl min w ≤ w := by
  intro ws
  induction ws with
  | nil => intro w; exact le_refl w
  | cons v vs ih =>
    intro w
    exact le_trans (ih (min w v)) (min_le_left w v)

theorem foldl_min_le_of_mem :
    ∀ (ws : List Nat) (w y : Nat), y ∈ ws → ws.foldl min w ≤ y := by
  intro ws
  induction ws with
  | nil => intro w y hy; cases hy
  | cons v vs ih =>
    intro w y hy
    simp only [List.foldl_cons]
    rcases List.mem_cons.mp hy with h | h
    · rw [h]; exact le_trans (foldl_min_le_init vs (min w v)) (min_le_right w v)
    · exact ih (min w v) y h

theorem foldl_min_mem : ∀ (ws : List Nat) (w : Nat), ws.foldl min w ∈ w :: ws := by
  intro ws
  induction ws with
  | nil => intro w; simp
  | cons v vs ih =>
    intro w
    simp only [List.foldl_cons]
    rcases List.mem_cons.mp (ih (min w v)) with h | h
    · rcases min_choice w v with he | he <;> rw [h, he]
      · simp
      · exact List.mem_cons_of_mem _ (List.mem_cons_self _ _)
    · exact List.mem_cons_of_mem _ (List.mem_cons_of_mem _ h)

theorem listMin0_spec {l : List Nat} (h : l ≠ []) :
    listMin0 l ∈ l ∧ ∀ y ∈ l, listMin0 l ≤ y := by
  match l with
  | w :: ws =>
    refine ⟨foldl_min_mem ws w, fun y hy => ?_⟩
    rcases List.mem_cons.mp hy with h | h
    · exact h ▸ foldl_min_le_init ws w
    · exact foldl_min_le_of_mem ws w y h

theorem solvesA_swap {m nb : Nat} {A : Nat → Nat → Bool} {a b : Nat}
    (ha : a < m) (hb : b < m) (x : Nat → Bool) :
    SolvesA m nb A x ↔ SolvesA m nb (swapRows A a b) x := by
  constructor
  · intro h r hr
    by_cases h1 : r = a
    · subst h1
      have : swapRows A r b r = A b := by funext c; simp [swapRows]
      rw [this]; exact h b hb
    · by_cases h2 : r = b
      · subst h2
        have : swapRows A a r r = A a := by
          funext c; simp [swapRows]
          intro h'; rw [h']
        rw [this]; exact h a ha
      · have : swapRows A a b r = A r := by funext c; simp [swapRows, h1, h2]
        rw [this]; exact h r hr
  · intro h r hr
    by_cases h1 : r = a
    · subst h1
      have : swapRows A r b b = A r := by
        funext c; simp only [swapRows]
        by_cases hab : b = r <;> simp [hab]
      have h' := h b hb
      rw [show swapRows A r b b = A r from this] at h'
      exact h'
    · by_cases h2 : r = b
      · subst h2
        have : swapRows A a r a = A r := by funext c; simp [swapRows]
        have h' := h a ha
        rw [this] at h'
        exact h'
      · have : swapRows A a b r = A r := by funext c; simp [swapRows, h1, h2]
        have h' := h r hr
        rw [this] at h'
        exact h'

theorem solvesA_elim {m nb : Nat} {A B : Nat → Nat → Bool} {row col : Nat}
    (hrow : row < m)
    (hB : ∀ r c, B r c = if r < m ∧ r ≠ row ∧ A r col = true then xor (A r c) (A row c)
      else A r c)
    (x : Nat → Bool) :
    SolvesA m nb A x ↔ SolvesA m nb B x := by
  have hBrow : ∀ c, B row c = A row c := by intro c; simp [hB]
  constructor
  · intro h r hr
    by_cases hc : r < m ∧ r ≠ row ∧ A r col = true
    · have hfun : ∀ c, B r c = xor (A r c) (A row c) := by intro c; simp [hB, hc]
      rw [dotXor_congr_left (u := fun c => xor (A r c) (A row c)) (fun c _ _ => hfun c),
        dotXor_xor_rows, h r hr, h row hrow, hfun nb]
    · have hfun : ∀ c, B r c = A r c := by intro c; simp [hB, hc]
      rw [dotXor_congr_left (u := A r) (fun c _ _ => hfun c), h r hr, hfun nb]
  · intro h r hr
    by_cases hc : r < m ∧ r ≠ row ∧ A r col = true
    · have hrowEq : dotXor (A row) x 0 nb = A row nb := by
        have h' := h row hrow
        rwa [dotXor_congr_left (u := A row) (fun c _ _ => hBrow c), hBrow nb] at h'
      have hfun : ∀ c, B r c = xor (A r c) (A row c) := by intro c; simp [hB, hc]
      have h' := h r hr
      rw [dotXor_congr_left (u := fun c => xor (A r c) (A row c)) (fun c _ _ => hfun c),
        dotXor_xor_rows, hrowEq, hfun nb] at h'
      have h2 := congrArg (fun b => xor b (A row nb)) h'
      simpa [Bool.xor_assoc] using h2
    · have hfun : ∀ c, B r c = A r c := by intro c; simp [hB, hc]
      have h' := h r hr
      rwa [dotXor_congr_left (u := A r) (fun c _ _ => hfun c), hfun nb] at h'

theorem swapRows_fst (mat : Nat → Nat → Bool) (a b c : Nat) :
    swapRows mat a b a c = mat b c := by simp [swapRows]

theorem swapRows_snd (mat : Nat → Nat → Bool) (a b c : Nat) :
    swapRows mat a b b c = mat a c := by
  by_cases h : b = a
  · subst h; simp [swapRows]
  · simp [swapRows, h]

theorem swapRows_other (mat : Nat → Nat → Bool) {a b r : Nat} (c : Nat)
    (h1 : r ≠ a) (h2 : r ≠ b) : swapRows mat a b r c = mat r c := by
  simp [swapRows, h1, h2]

theorem getD_append_lt {α : Type} {l l' : List α} {d : α} {i : Nat} (h : i < l.length) :
    (l ++ l').getD i d = l.getD i d := by
  induction l generalizing i with
  | nil => exact absurd h (by simp)
  | cons x xs ih =>
    cases i with
    | zero => rfl
    | succ n => exact ih (by simpa using h)

theorem getD_concat_len {α : Type} : ∀ (l : List α) (a d : α), (l ++ [a]).getD l.length d = a := by
  intro l a d
  induction l with
  | nil => rfl
  | cons x xs ih => simp [ih]

theorem getD_mem_of_lt {α : Type} {l : List α} {d : α} {i : Nat} (h : i < l.length) :
    l.getD i d ∈ l := by
  induction l generalizing i with
  | nil => exact absurd h (by simp)
  | cons x xs ih =>
    cases i with
    | zero => exact List.mem_cons_self _ _
    | succ n => exact List.mem_cons_of_mem _ (ih (by simpa using h))

theorem exists_getD_of_mem {α : Type} {l : List α} {c : α} (d : α) (h : c ∈ l) :
    ∃ j, j < l.length ∧ l.getD j d = c := by
  induction l with
  | nil => cases h
  | cons x xs ih =>
    rcases List.mem_cons.mp h with h1 | h1
    · exact ⟨0, by simp, h1.symm⟩
    · rcases ih h1 with ⟨j, hj, he⟩
      exact ⟨j + 1, by simpa using hj, he⟩

theorem getD_ne_of_nodup {l : List Nat} (h : l.Nodup) {i j : Nat}
    (hi : i < l.length) (hj : j < l.length) (hne : i ≠ j) :
    l.getD i 0 ≠ l.getD j 0 := by
  rw [List.getD_eq_getElem l 0 hi, List.getD_eq_getElem l 0 hj]
  intro heq
  exact hne (List.Nodup.getElem_inj_iff h |>.mp heq)

theorem findPivot_none {mat : Nat → Nat → Bool} {col row m : Nat}
    (h : findPivot mat col row m = none) :
    ∀ r, row ≤ r → r < m → mat r col = false := by
  intro r h1 h2
  have hmem : r ∈ List.range' row (m - row) := by
    rw [List.mem_range'_1]
    omega
  have := List.find?_eq_none.mp h r hmem
  simpa using this

theorem findPivot_some {mat : Nat → Nat → Bool} {col row m pr : Nat}
    (h : findPivot mat col row m = some pr) :
    row ≤ pr ∧ pr < m ∧ mat pr col = true := by
  have hmem := List.mem_of_find?_eq_some h
  have hpred := List.find?_some h
  rw [List.mem_range'_1] at hmem
  refine ⟨hmem.1, by omega, by simpa using hpred⟩

theorem elimInv_init (m nb : Nat) (A0 : Nat → Nat → Bool) :
    ElimInv m nb 0 A0 ⟨A0, 0, []⟩ := by
  refine ⟨rfl, Nat.zero_le m, ?_, ?_, ?_, ?_, ?_, ?_, ?_⟩
  · intro p hp; cases hp
  · exact List.Pairwise.nil
  · intro i hi; cases hi
  · intro i hi; cases hi
  · intro i hi; cases hi
  · intro r _ _ c2 hc2; omega
  · intro x; rfl

theorem elimInv_step_some {m nb col : Nat} {A0 B : Nat → Nat → Bool} {st : ElimSt} {pr : Nat}
    (hfp : findPivot st.mat col st.row m = some pr)
    (hB : ∀ r c2, B r c2 =
      if r < m ∧ r ≠ st.row ∧ swapRows st.mat st.row pr r col = true
      then xor (swapRows st.mat st.row pr r c2) (swapRows st.mat st.row pr st.row c2)
      else swapRows st.mat st.row pr r c2)
    (h : ElimInv m nb col A0 st) :
    ElimInv m nb (col + 1) A0 ⟨B, st.row + 1, st.pivots ++ [col]⟩ := by
  rcases h with ⟨rowEq, rowLe, pivLt, pivSorted, diag, offdiag, leftz, lowz, pres⟩
  rcases findPivot_some hfp with ⟨hprge, hprlt, hprc⟩
  have hrowlt : st.row < m := Nat.lt_of_le_of_lt hprge hprlt
  have hm1row : ∀ c2, swapRows st.mat st.row pr st.row c2 = st.mat pr c2 :=
    fun c2 => swapRows_fst _ _ _ _
  have hm1pr : ∀ c2, swapRows st.mat st.row pr pr c2 = st.mat st.row c2 :=
    fun c2 => swapRows_snd _ _ _ _
  have hm1other : ∀ r, r ≠ st.row → r ≠ pr → ∀ c2,
      swapRows st.mat st.row pr r c2 = st.mat r c2 :=
    fun r h1 h2 c2 => swapRows_other _ c2 h1 h2
  have hm1small : ∀ r, r < st.row → ∀ c2, swapRows st.mat st.row pr r c2 = st.mat r c2 := by
    intro r hr c2
    exact hm1other r (by omega) (by omega) c2
  have hm1low : ∀ r, st.row ≤ r → r < m → ∀ c2, c2 < col →
      swapRows st.mat st.row pr r c2 = false := by
    intro r hge hrm c2 hc2
    by_cases h1 : r = st.row
    · rw [h1, hm1row]; exact lowz pr hprge hprlt c2 hc2
    · by_cases h2 : r = pr
      · rw [h2, hm1pr]; exact lowz st.row (le_refl _) hrowlt c2 hc2
      · rw [hm1other r h1 h2]; exact lowz r hge hrm c2 hc2
  have hm1rowc : swapRows st.mat st.row pr st.row col = true := by
    rw [hm1row]; exact hprc
  refine ⟨?_, ?_, ?_, ?_, ?_, ?_, ?_, ?_, ?_⟩
  · simp [rowEq]
  · show st.row + 1 ≤ m; omega
  · intro p hp
    rcases List.mem_append.mp hp with hp1 | hp1
    · exact Nat.lt_succ_of_lt (pivLt p hp1)
    · simp at hp1; omega
  · show (st.pivots ++ [col]).Pairwise (· < ·)
    rw [List.pairwise_append]
    refine ⟨pivSorted, List.pairwise_singleton _ _, ?_⟩
    intro a ha b hb
    simp at hb
    subst hb
    exact pivLt a ha
  · -- diag
    intro i hi
    simp only [List.length_append, List.length_cons, List.length_nil] at hi
    show B i ((st.pivots ++ [col]).getD i 0) = true
    rcases Nat.lt_or_ge i st.pivots.length with hilt | hige
    · rw [getD_append_lt hilt, hB]
      have hirow : i < st.row := by omega
      by_cases hcond : i < m ∧ i ≠ st.row ∧ swapRows st.mat st.row pr i col = true
      · simp only [if_pos hcond]
        rw [hm1small i hirow, hm1row, diag i hilt,
          offdiag i hilt pr hprlt (by omega)]
        rfl
      · simp only [if_neg hcond]
        rw [hm1small i hirow]
        exact diag i hilt
    · have hieq : i = st.pivots.length := by omega
      subst hieq
      rw [getD_concat_len, hB]
      have hne : ¬ (st.pivots.length < m ∧ st.pivots.length ≠ st.row ∧
          swapRows st.mat st.row pr st.pivots.length col = true) := by
        rw [← rowEq]; intro hcon; exact hcon.2.1 rfl
      simp only [if_neg hne]
      rw [← rowEq]
      exact hm1rowc
  · -- offdiag
    intro i hi r hrm hrne
    simp only [List.length_append, List.length_cons, List.length_nil] at hi
    show B r ((st.pivots ++ [col]).getD i 0) = false
    rcases Nat.lt_or_ge i st.pivots.length with hilt | hige
    · rw [getD_append_lt hilt, hB]
      have hm1ipc : ∀ s, s < m → s ≠ i →
          swapRows st.mat st.row pr s (st.pivots.getD i 0) = false := by
        intro s hsm hsne
        by_cases h1 : s = st.row
        · rw [h1, hm1row]
          exact offdiag i hilt pr hprlt (by omega)
        · by_cases h2 : s = pr
          · rw [h2, hm1pr]
            exact offdiag i hilt st.row hrowlt (by rw [rowEq]; omega)
          · rw [hm1other s h1 h2]
            exact offdiag i hilt s hsm hsne
      by_cases hcond : r < m ∧ r ≠ st.row ∧ swapRows st.mat st.row pr r col = true
      · simp only [if_pos hcond]
        rw [hm1ipc r hrm hrne, hm1ipc st.row hrowlt (by rw [rowEq]; omega)]
        rfl
      · simp only [if_neg hcond]
        exact hm1ipc r hrm hrne
    · have hieq : i = st.pivots.length := by omega
      subst hieq
      rw [getD_concat_len, hB]
      have hrnerow : r ≠ st.row := by rw [rowEq]; exact hrne
      by_cases hcond : r < m ∧ r ≠ st.row ∧ swapRows st.mat st.row pr r col = true
      · simp only [if_pos hcond]
        rw [hcond.2.2, hm1rowc]
        rfl
      · simp only [if_neg hcond]
        rcases hval : swapRows st.mat st.row pr r col with _ | _
        · rfl
        · exact absurd ⟨hrm, hrnerow, hval⟩ hcond
  · -- leftz
    intro i hi c2 hc2
    simp only [List.length_append, List.length_cons, List.length_nil] at hi
    show B i c2 = false
    rcases Nat.lt_or_ge i st.pivots.length with hilt | hige
    · rw [getD_append_lt hilt] at hc2
      have hirow : i < st.row := by omega
      have hpclt : st.pivots.getD i 0 < col := pivLt _ (getD_mem_of_lt hilt)
      have hrow2 : swapRows st.mat st.row pr st.row c2 = false := by
        rw [hm1row]; exact lowz pr hprge hprlt c2 (by omega)
      have hown : swapRows st.mat st.row pr i c2 = st.mat i c2 := hm1small i hirow c2
      rw [hB]
      by_cases hcond : i < m ∧ i ≠ st.row ∧ swapRows st.mat st.row pr i col = true
      · simp only [if_pos hcond]
        rw [hown, leftz i hilt c2 hc2, hrow2]
        rfl
      · simp only [if_neg hcond]
        rw [hown]
        exact leftz i hilt c2 hc2
    · have hieq : i = st.pivots.length := by omega
      subst hieq
      rw [getD_concat_len] at hc2
      rw [hB]
      have hne : ¬ (st.pivots.length < m ∧ st.pivots.length ≠ st.row ∧
          swapRows st.mat st.row pr st.pivots.length col = true) := by
        rw [← rowEq]; intro hcon; exact hcon.2.1 rfl
      simp only [if_neg hne]
      rw [← rowEq, hm1row]
      exact lowz pr hprge hprlt c2 hc2
  · -- lowz
    intro r hge hrm c2 hc2
    simp only at hge
    have hrnerow : r ≠ st.row := by omega
    show B r c2 = false
    rw [hB]
    rcases Nat.lt_or_ge c2 col with hlt | hge2
    · have hrlow : swapRows st.mat st.row pr r c2 = false :=
        hm1low r (by omega) hrm c2 hlt
      have hrowlow : swapRows st.mat st.row pr st.row c2 = false :=
        hm1low st.row (le_refl _) hrowlt c2 hlt
      by_cases hcond : r < m ∧ r ≠ st.row ∧ swapRows st.mat st.row pr r col = true
      · simp only [if_pos hcond]; rw [hrlow, hrowlow]; rfl
      · simp only [if_neg hcond]; exact hrlow
    · have hc2eq : c2 = col := by omega
      subst hc2eq
      by_cases hcond : r < m ∧ r ≠ st.row ∧ swapRows st.mat st.row pr r c2 = true
      · simp only [if_pos hcond]
        rw [hcond.2.2, hm1rowc]
        rfl
      · simp only [if_neg hcond]
        rcases hval : swapRows st.mat st.row pr r c2 with _ | _
        · rfl
        · exact absurd ⟨hrm, hrnerow, hval⟩ hcond
  · -- preservation of the solution set
    intro x
    refine (pres x).trans ?_
    refine (solvesA_swap hrowlt hprlt x).trans ?_
    exact solvesA_elim hrowlt hB x

theorem elimInv_step {m nb c : Nat} {A0 : Nat → Nat → Bool} {st : ElimSt}
    (h : ElimInv m nb c A0 st) : ElimInv m nb (c + 1) A0 (stepCol m st c) := by
  rcases hfp : findPivot st.mat c st.row m with _ | pr
  · have hst : stepCol m st c = st := by
      simp only [stepCol, hfp]
    rw [hst]
    rcases h with ⟨rowEq, rowLe, pivLt, pivSorted, diag, offdiag, leftz, lowz, pres⟩
    have hzero := findPivot_none hfp
    refine ⟨rowEq, rowLe, ?_, pivSorted, diag, offdiag, leftz, ?_, pres⟩
    · intro p hp; exact Nat.lt_succ_of_lt (pivLt p hp)
    · intro r hge hrm c2 hc2
      rcases Nat.lt_or_ge c2 c with hlt | hge2
      · exact lowz r hge hrm c2 hlt
      · have hc2eq : c2 = c := by omega
        subst hc2eq
        exact hzero r hge hrm
  · have hst : stepCol m st c =
        ⟨fun r c2 =>
          if r < m ∧ r ≠ st.row ∧ swapRows st.mat st.row pr r c = true
          then xor (swapRows st.mat st.row pr r c2) (swapRows st.mat st.row pr st.row c2)
          else swapRows st.mat st.row pr r c2, st.row + 1, st.pivots ++ [c]⟩ := by
      simp only [stepCol, hfp]
    rw [hst]
    exact elimInv_step_some hfp (fun r c2 => rfl) h

theorem elimInv_all (m nb : Nat) (buttons : List (List Nat)) (target : List Bool) :
    ∀ c, ElimInv m nb c (mat0 buttons target) (elimCols m buttons target c) := by
  intro c
  induction c with
  | zero => exact elimInv_init m nb (mat0 buttons target)
  | succ n ih => exact elimInv_step ih

/-! ### Correctness of the back-substitution and of the mask enumeration -/

theorem dotXor_congr_right {f g g' : Nat → Bool} {lo len : Nat}
    (h : ∀ c, lo ≤ c → c < lo + len → g c = g' c) :
    dotXor f g lo len = dotXor f g' lo len :=
  dotXor_congr_support fun c h1 h2 _ => h c h1 h2

theorem assignFree_not_mem : ∀ (cs : List Nat) (bs : List Bool) (sol : Nat → Bool) (c : Nat),
    c ∉ cs → assignFree cs bs sol c = sol c := by
  intro cs
  induction cs with
  | nil => intro bs sol c _; cases bs <;> rfl
  | cons c0 cs0 ih =>
    intro bs sol c hc
    cases bs with
    | nil => rfl
    | cons b bs0 =>
      have hne : c ≠ c0 := fun h => hc (h ▸ List.mem_cons_self _ _)
      have hrest : c ∉ cs0 := fun h => hc (List.mem_cons_of_mem _ h)
      simp only [assignFree]
      rw [ih bs0 _ c hrest, Function.update_noteq hne]

theorem assignFree_map_mem {x : Nat → Bool} : ∀ (cs : List Nat) (sol : Nat → Bool) (c : Nat),
    cs.Nodup → c ∈ cs → assignFree cs (cs.map x) sol c = x c := by
  intro cs
  induction cs with
  | nil => intro sol c _ hc; cases hc
  | cons c0 cs0 ih =>
    intro sol c hnd hc
    simp only [List.map_cons, assignFree]
    rcases List.mem_cons.mp hc with h1 | h1
    · subst h1
      have hnotin : c ∉ cs0 := (List.nodup_cons.mp hnd).1
      rw [assignFree_not_mem cs0 _ _ c hnotin, Function.update_same]
    · exact ih _ c (List.nodup_cons.mp hnd).2 h1

theorem drop_cons_facts {α : Type} {d : α} {l : List α} : ∀ {i : Nat} {pc : α} {rest : List α},
    l.drop i = pc :: rest → i < l.length ∧ l.getD i d = pc ∧ rest = l.drop (i + 1) := by
  induction l with
  | nil => intro i pc rest h; simp at h
  | cons x xs ih =>
    intro i pc rest h
    cases i with
    | zero =>
      simp only [List.drop_zero] at h
      cases h
      exact ⟨by simp, rfl, rfl⟩
    | succ n =>
      simp only [List.drop_succ_cons] at h
      rcases ih h with ⟨h1, h2, h3⟩
      exact ⟨by simpa using h1, by simpa using h2, h3⟩

/-- Back-substitution processes pivot columns in order; afterwards every pivot
column satisfies its own back-substitution equation with respect to the final
solution, and non-pivot columns keep their seeded values.  The off-pivot
hypothesis `hoff` states that row `i` of the reduced matrix is zero on every
pivot column other than its own. -/
theorem backSub_go {mat : Nat → Nat → Bool} (nb : Nat) {pv : List Nat}
    (hnd : pv.Nodup)
    (hoff : ∀ i j, i < pv.length → j < pv.length → j ≠ i → mat i (pv.getD j 0) = false) :
    ∀ (rest : List Nat) (i : Nat) (sol : Nat → Bool),
      rest = pv.drop i →
      (∀ j, j < i → j < pv.length → sol (pv.getD j 0) =
        xor (mat j nb) (dotXor (mat j) sol (pv.getD j 0 + 1) (nb - (pv.getD j 0 + 1)))) →
      (∀ j, j < pv.length → (backSub mat nb rest i sol) (pv.getD j 0) =
        xor (mat j nb)
          (dotXor (mat j) (backSub mat nb rest i sol) (pv.getD j 0 + 1)
            (nb - (pv.getD j 0 + 1)))) ∧
      (∀ c, c ∉ pv → (backSub mat nb rest i sol) c = sol c) := by
  intro rest
  induction rest with
  | nil =>
    intro i sol hrest hprev
    have hlen : pv.length ≤ i := by
      by_contra hlt
      push_neg at hlt
      have := List.drop_eq_nil_iff.mp hrest.symm
      omega
    exact ⟨fun j hj => hprev j (by omega) hj, fun c _ => rfl⟩
  | cons pc rest2 ih =>
    intro i sol hrest hprev
    rcases drop_cons_facts hrest.symm with ⟨hilt, hpc, hrest2⟩
    have hstep : backSub mat nb (pc :: rest2) i sol =
        backSub mat nb rest2 (i + 1)
          (Function.update sol pc
            (xor (mat i nb) (dotXor (mat i) sol (pc + 1) (nb - (pc + 1))))) := rfl
    rw [hstep]
    set v := xor (mat i nb) (dotXor (mat i) sol (pc + 1) (nb - (pc + 1))) with hv
    have hprev2 : ∀ j, j < i + 1 → j < pv.length →
        (Function.update sol pc v) (pv.getD j 0) =
        xor (mat j nb)
          (dotXor (mat j) (Function.update sol pc v) (pv.getD j 0 + 1)
            (nb - (pv.getD j 0 + 1))) := by
      intro j hj hjlen
      rcases Nat.lt_or_ge j i with hji | hji
      · -- previously processed pivot: the update does not disturb its equation
        have hnepc : pv.getD j 0 ≠ pc := by
          rw [← hpc]
          exact getD_ne_of_nodup hnd hjlen hilt (by omega)
        have hleft : (Function.update sol pc v) (pv.getD j 0) = sol (pv.getD j 0) :=
          Function.update_noteq hnepc _ _
        have hright : dotXor (mat j) (Function.update sol pc v) (pv.getD j 0 + 1)
            (nb - (pv.getD j 0 + 1)) =
            dotXor (mat j) sol (pv.getD j 0 + 1) (nb - (pv.getD j 0 + 1)) := by
          apply dotXor_congr_support
          intro c _ _ hc
          have hcnepc : c ≠ pc := by
            intro he
            subst he
            rw [← hpc] at hc
            rw [hoff j i hjlen hilt (by omega)] at hc
            cases hc
          exact Function.update_noteq hcnepc _ _
        rw [hleft, hright]
        exact hprev j hji hjlen
      · -- the pivot processed in this step
        have hji2 : j = i := by omega
        subst hji2
        rw [← hpc] at hv ⊢
        rw [Function.update_same]
        have hright : dotXor (mat j) (Function.update sol (pv.getD j 0) v)
            (pv.getD j 0 + 1) (nb - (pv.getD j 0 + 1)) =
            dotXor (mat j) sol (pv.getD j 0 + 1) (nb - (pv.getD j 0 + 1)) := by
          apply dotXor_congr_right
          intro c hc _
          exact Function.update_noteq (by omega) _ _
        rw [hright]
        exact hv
    rcases ih (i + 1) (Function.update sol pc v) (by rw [hrest2]) hprev2 with ⟨hA, hB⟩
    refine ⟨hA, ?_⟩
    intro c hc
    rw [hB c hc]
    have hnepc : c ≠ pc := by
      intro he
      subst he
      exact hc (hpc ▸ getD_mem_of_lt hilt)
    exact Function.update_noteq hnepc _ _

theorem solve_part1_eq (buttons : List (List Nat)) (target : List Bool) :
    solve_machine_part1 buttons target =
      listMin0 ((allBools (freeCols buttons target).length).map (maskWeight buttons target)) :=
  rfl

theorem elimFinal_inv (buttons : List (List Nat)) (target : List Bool) :
    ElimInv target.length buttons.length buttons.length (mat0 buttons target)
      (elimFinal buttons target) :=
  elimInv_all target.length buttons.length buttons target buttons.length

theorem xor_shift {a t b : Bool} (h : xor a t = b) : a = xor b t := by
  rw [← h, Bool.xor_assoc, Bool.xor_self, Bool.xor_false]

theorem dotXor_pivot_split {f x : Nat → Bool} {nb pc : Nat} (hpc : pc < nb)
    (hleft : ∀ c2, c2 < pc → f c2 = false) (hdiag : f pc = true) :
    dotXor f x 0 nb = xor (x pc) (dotXor f x (pc + 1) (nb - (pc + 1))) := by
  have hsum : (pc + 1) + (nb - (pc + 1)) = nb := by omega
  have h1 := dotXor_split f x 0 (pc + 1) (nb - (pc + 1))
  rw [hsum, Nat.zero_add] at h1
  have h2 := dotXor_split f x 0 pc 1
  have h3 : dotXor f x pc 1 = (f pc && x pc) := by
    simp only [dotXor, Nat.add_zero, Bool.false_xor]
  rw [Nat.zero_add] at h2
  have h4 : dotXor f x 0 pc = false :=
    dotXor_eq_false fun c2 h1' h2' => hleft c2 (by omega)
  rw [h1, h2, h3, h4, hdiag]
  simp [Bool.xor_comm]

theorem elimFinal_consistent {buttons : List (List Nat)} {target : List Bool}
    (hcons : ∃ x : Nat → Bool,
      SolvesA target.length buttons.length (mat0 buttons target) x) :
    ∀ r, (elimFinal buttons target).pivots.length ≤ r → r < target.length →
      (elimFinal buttons target).mat r buttons.length = false := by
  rcases hcons with ⟨x0, hx0⟩
  have inv := elimFinal_inv buttons target
  have hx0F := (inv.pres x0).mp hx0
  intro r h1 h2
  have hrow := hx0F r h2
  rw [dotXor_eq_false (fun c2 hc1 hc2 =>
    inv.lowz r (by rw [inv.rowEq]; omega) h2 c2 (by omega))] at hrow
  exact hrow.symm

theorem elimFinal_nodup (buttons : List (List Nat)) (target : List Bool) :
    (elimFinal buttons target).pivots.Nodup :=
  (elimFinal_inv buttons target).pivSorted.imp Nat.ne_of_lt

theorem elimFinal_hoff (buttons : List (List Nat)) (target : List Bool) :
    ∀ i j, i < (elimFinal buttons target).pivots.length →
      j < (elimFinal buttons target).pivots.length → j ≠ i →
      (elimFinal buttons target).mat i ((elimFinal buttons target).pivots.getD j 0) = false := by
  intro i j hi hj hne
  have inv := elimFinal_inv buttons target
  exact inv.offdiag j hj i (by have := inv.rowLe; rw [inv.rowEq] at this; omega) hne.symm

theorem elimFinal_pivot_lt (buttons : List (List Nat)) (target : List Bool) {j : Nat}
    (hj : j < (elimFinal buttons target).pivots.length) :
    (elimFinal buttons target).pivots.getD j 0 < buttons.length :=
  (elimFinal_inv buttons target).pivLt _ (getD_mem_of_lt hj)

/-- Every mask enumeration entry is a genuine solution of the reduced (hence of
the original) system — provided the system is consistent at all. -/
theorem backSub_solvesA {buttons : List (List Nat)} {target : List Bool}
    (hcons : ∃ x : Nat → Bool,
      SolvesA target.length buttons.length (mat0 buttons target) x)
    (sol0 : Nat → Bool) :
    SolvesA target.length buttons.length (elimFinal buttons target).mat
      (backSub (elimFinal buttons target).mat buttons.length
        (elimFinal buttons target).pivots 0 sol0) := by
  have inv := elimFinal_inv buttons target
  have hgo := backSub_go buttons.length (elimFinal_nodup buttons target)
    (elimFinal_hoff buttons target) (elimFinal buttons target).pivots 0 sol0 (by simp)
    (fun j hj _ => absurd hj (Nat.not_lt_zero j))
  intro r hr
  rcases Nat.lt_or_ge r (elimFinal buttons target).pivots.length with hrp | hrp
  · rw [dotXor_pivot_split (elimFinal_pivot_lt buttons target hrp)
        (fun c2 hc2 => inv.leftz r hrp c2 hc2) (inv.diag r hrp)]
    rw [hgo.1 r hrp, Bool.xor_assoc, Bool.xor_self, Bool.xor_false]
  · rw [dotXor_eq_false (fun c2 hc1 hc2 =>
      inv.lowz r (by rw [inv.rowEq]; omega) hr c2 (by omega))]
    exact (elimFinal_consistent hcons r hrp hr).symm

theorem freeCols_nodup (buttons : List (List Nat)) (target : List Bool) :
    (freeCols buttons target).Nodup :=
  (List.nodup_range buttons.length).filter _

theorem mem_freeCols {buttons : List (List Nat)} {target : List Bool} {c : Nat}
    (h1 : c < buttons.length) (h2 : c ∉ (elimFinal buttons target).pivots) :
    c ∈ freeCols buttons target := by
  rw [freeCols, List.mem_filter, List.mem_range]
  exact ⟨h1, by simp [h2]⟩

/-- Any solution of the reduced system is reproduced exactly (on all real
columns) by back-substitution from the mask that copies its free components. -/
theorem backSub_eq_of_solves {buttons : List (List Nat)} {target : List Bool}
    {x : Nat → Bool}
    (hx : SolvesA target.length buttons.length (elimFinal buttons target).mat x) :
    ∀ c, c < buttons.length →
      backSub (elimFinal buttons target).mat buttons.length
        (elimFinal buttons target).pivots 0
        (assignFree (freeCols buttons target) ((freeCols buttons target).map x)
          (fun _ => false)) c = x c := by
  have inv := elimFinal_inv buttons target
  have hgo := backSub_go buttons.length (elimFinal_nodup buttons target)
    (elimFinal_hoff buttons target) (elimFinal buttons target).pivots 0
    (assignFree (freeCols buttons target) ((freeCols buttons target).map x) (fun _ => false))
    (by simp) (fun j hj _ => absurd hj (Nat.not_lt_zero j))
  have hrowLe : (elimFinal buttons target).pivots.length ≤ target.length := by
    have := inv.rowLe; rw [inv.rowEq] at this; exact this
  have hfree_eq : ∀ c, c < buttons.length → c ∉ (elimFinal buttons target).pivots →
      backSub (elimFinal buttons target).mat buttons.length
        (elimFinal buttons target).pivots 0
        (assignFree (freeCols buttons target) ((freeCols buttons target).map x)
          (fun _ => false)) c = x c := by
    intro c h1 h2
    rw [hgo.2 c h2]
    exact assignFree_map_mem _ _ c (freeCols_nodup buttons target) (mem_freeCols h1 h2)
  intro c hc
  by_cases hcp : c ∈ (elimFinal buttons target).pivots
  · rcases exists_getD_of_mem 0 hcp with ⟨j, hj, hje⟩
    rw [← hje]
    have hpclt := elimFinal_pivot_lt buttons target hj
    have hxeq : x ((elimFinal buttons target).pivots.getD j 0) =
        xor ((elimFinal buttons target).mat j buttons.length)
          (dotXor ((elimFinal buttons target).mat j) x
            ((elimFinal buttons target).pivots.getD j 0 + 1)
            (buttons.length - ((elimFinal buttons target).pivots.getD j 0 + 1))) := by
      have hrow := hx j (by omega)
      rw [dotXor_pivot_split hpclt (fun c2 hc2 => inv.leftz j hj c2 hc2) (inv.diag j hj)]
        at hrow
      exact xor_shift hrow
    rw [hgo.1 j hj, hxeq]
    congr 1
    apply dotXor_congr_support
    intro c2 hge hlt hcoef
    have hc2nb : c2 < buttons.length := by omega
    have hc2notpiv : c2 ∉ (elimFinal buttons target).pivots := by
      intro hmem
      rcases exists_getD_of_mem 0 hmem with ⟨k, hk, hke⟩
      by_cases hkj : k = j
      · subst hkj
        rw [hke] at hge
        omega
      · rw [← hke] at hcoef
        rw [elimFinal_hoff buttons target j k hj hk hkj] at hcoef
        cases hcoef
    exact hfree_eq c2 hc2nb hc2notpiv
  · exact hfree_eq c hc hcp

/-- Characterization of `solve_machine_part1` on consistent systems: the result
is the minimum GF(2) solution weight, and it is attained. -/
theorem solve_part1_spec {buttons : List (List Nat)} {target : List Bool}
    (hcons : ∃ x : Nat → Bool,
      SolvesA target.length buttons.length (mat0 buttons target) x) :
    (∃ x : Nat → Bool, SolvesA target.length buttons.length (mat0 buttons target) x ∧
      weightF x buttons.length = solve_machine_part1 buttons target) ∧
    (∀ x : Nat → Bool, SolvesA target.length buttons.length (mat0 buttons target) x →
      solve_machine_part1 buttons target ≤ weightF x buttons.length) := by
  have inv := elimFinal_inv buttons target
  have hne : (allBools (freeCols buttons target).length).map (maskWeight buttons target)
      ≠ [] := by
    intro h
    exact allBools_ne_nil _ (List.map_eq_nil_iff.mp h)
  rcases listMin0_spec hne with ⟨hmem, hlb⟩
  rw [solve_part1_eq]
  constructor
  · rcases List.mem_map.mp hmem with ⟨mask, _, hw⟩
    refine ⟨backSub (elimFinal buttons target).mat buttons.length
      (elimFinal buttons target).pivots 0
      (assignFree (freeCols buttons target) mask (fun _ => false)), ?_, ?_⟩
    · exact (inv.pres _).mpr (backSub_solvesA hcons _)
    · exact hw
  · intro x hx
    have hxF := (inv.pres x).mp hx
    have hmm : (freeCols buttons target).map x ∈ allBools (freeCols buttons target).length :=
      mem_allBools_of_length (by simp)
    have hmemw := List.mem_map_of_mem (maskWeight buttons target) hmm
    have hle := hlb _ hmemw
    have heq : maskWeight buttons target ((freeCols buttons target).map x) =
        weightF x buttons.length :=
      weightF_congr fun c hc => backSub_eq_of_solves hxF c hc
    rw [heq] at hle
    exact hle

/-! ### Bridging the function-level system to the list-level press combinations -/

theorem solvesA_iff_solvesL (buttons : List (List Nat)) (target : List Bool)
    (x : List Bool) :
    SolvesA target.length buttons.length (mat0 buttons target)
      (fun j => x.getD j false) ↔ SolvesL buttons target x := by
  have hcoef : ∀ i, dotXor (mat0 buttons target i) (fun j => x.getD j false) 0 buttons.length
      = comboLight buttons (fun j => x.getD j false) i := by
    intro i
    apply dotXor_congr_left
    intro c h1 h2
    simp only [mat0]
    rw [if_neg (by omega)]
  have haug : ∀ i, mat0 buttons target i buttons.length = target.getD i false := by
    intro i
    simp [mat0]
  constructor
  · intro h i hi
    rw [← hcoef i, h i hi, haug i]
  · intro h i hi
    rw [hcoef i, h i hi, haug i]

theorem solvesA_congr_x {m nb : Nat} {A : Nat → Nat → Bool} {x x' : Nat → Bool}
    (h : ∀ j, j < nb → x j = x' j) (hs : SolvesA m nb A x) : SolvesA m nb A x' := by
  intro r hr
  rw [← dotXor_congr_right (g := x) (fun c h1 h2 => h c (by omega))]
  exact hs r hr

theorem map_range_getD (f : Nat → Bool) {n j : Nat} (h : j < n) :
    ((List.range n).map f).getD j false = f j := by
  rw [List.getD_eq_getElem _ _ (by simpa using h)]
  simp

theorem weightF_getD_eq_pressWeight : ∀ (x : List Bool),
    weightF (fun j => x.getD j false) x.length = pressWeight x := by
  intro x
  induction x using List.reverseRecOn with
  | nil => rfl
  | append_singleton xs b ih =>
    have hlen : (xs ++ [b]).length = xs.length + 1 := by simp
    rw [hlen]
    show weightF (fun j => (xs ++ [b]).getD j false) xs.length +
      (if (xs ++ [b]).getD xs.length false then 1 else 0) = pressWeight (xs ++ [b])
    rw [getD_concat_len]
    have hcongr : weightF (fun j => (xs ++ [b]).getD j false) xs.length =
        weightF (fun j => xs.getD j false) xs.length :=
      weightF_congr fun c hc => getD_append_lt hc
    rw [hcongr, ih]
    simp only [pressWeight, List.count_append]
    cases b <;> simp [List.count_singleton]

/-- The two sides of `solve_part1_spec`, restated over list-valued press
combinations of the right length. -/
theorem solve_part1_list_spec {buttons : List (List Nat)} {target : List Bool}
    (hcons : ∃ x : List Bool, x.length = buttons.length ∧ SolvesL buttons target x) :
    (∃ x : List Bool, x.length = buttons.length ∧ SolvesL buttons target x ∧
      pressWeight x = solve_machine_part1 buttons target) ∧
    (∀ x : List Bool, x.length = buttons.length → SolvesL buttons target x →
      solve_machine_part1 buttons target ≤ pressWeight x) := by
  have hconsF : ∃ xf : Nat → Bool,
      SolvesA target.length buttons.length (mat0 buttons target) xf := by
    rcases hcons with ⟨x, _, hx⟩
    exact ⟨fun j => x.getD j false, (solvesA_iff_solvesL buttons target x).mpr hx⟩
  rcases solve_part1_spec hconsF with ⟨⟨xf, hxf, hw⟩, hmin⟩
  constructor
  · refine ⟨(List.range buttons.length).map xf, by simp, ?_, ?_⟩
    · apply (solvesA_iff_solvesL buttons target _).mp
      exact solvesA_congr_x (fun j hj => (map_range_getD xf hj).symm) hxf
    · rw [← weightF_getD_eq_pressWeight]
      have hlen : ((List.range buttons.length).map xf).length = buttons.length := by simp
      rw [hlen]
      rw [weightF_congr (u := xf) fun c hc => map_range_getD xf hc]
      exact hw
  · intro x hlen hx
    have hle := hmin (fun j => x.getD j false) ((solvesA_iff_solvesL buttons target x).mpr hx)
    rw [← hlen, weightF_getD_eq_pressWeight] at hle
    exact hle

/-! ### Toggling computes the GF(2) parity of the pressed buttons -/

theorem getD_set_self {α : Type} {l : List α} {d : α} {i : Nat} (h : i < l.length) (v : α) :
    (l.set i v).getD i d = v := by
  rw [List.getD_eq_getElem _ _ (by simpa using h)]
  simp

theorem getD_set_other {α : Type} {l : List α} {d : α} {i j : Nat} (hne : j ≠ i) (v : α) :
    (l.set i v).getD j d = l.getD j d := by
  by_cases hj : j < l.length
  · rw [List.getD_eq_getElem _ _ (by simpa using hj), List.getD_eq_getElem _ _ hj]
    simp only [List.getElem_set]
    rw [if_neg (fun h => hne h.symm)]
  · have h1 : (l.set i v).length ≤ j := by rw [List.length_set]; omega
    have h2 : l.length ≤ j := by omega
    rw [List.getD_eq_default _ _ h1, List.getD_eq_default _ _ h2]

theorem applyButton_spec : ∀ (idxs : List Nat) (lights : List Bool),
    idxs.Nodup → (∀ i ∈ idxs, i < lights.length) →
    ∃ L, applyButton lights idxs = some L ∧ L.length = lights.length ∧
      ∀ j, j < lights.length →
        L.getD j false = xor (lights.getD j false) (decide (j ∈ idxs)) := by
  intro idxs
  induction idxs with
  | nil =>
    intro lights _ _
    exact ⟨lights, rfl, rfl, fun j _ => by simp⟩
  | cons i rest ih =>
    intro lights hnd hrange
    have hi : i < lights.length := hrange i (List.mem_cons_self _ _)
    have hstep : toggleLight lights i = some (lights.set i (!(lights.get ⟨i, hi⟩))) := by
      rw [toggleLight, dif_pos hi]
    rcases ih (lights.set i (!(lights.get ⟨i, hi⟩)))
        (List.nodup_cons.mp hnd).2
        (fun k hk => by
          rw [List.length_set]
          exact hrange k (List.mem_cons_of_mem _ hk)) with ⟨L, hL, hlen, hget⟩
    refine ⟨L, ?_, by rw [hlen, List.length_set], ?_⟩
    · show (match toggleLight lights i with
        | none => none
        | some l2 => applyButton l2 rest) = some L
      rw [hstep]
      exact hL
    · intro j hj
      have hj2 : j < (lights.set i (!(lights.get ⟨i, hi⟩))).length := by
        rw [List.length_set]; exact hj
      rw [hget j hj2]
      by_cases hji : j = i
      · subst hji
        rw [getD_set_self hi]
        have hnotin : j ∉ rest := (List.nodup_cons.mp hnd).1
        have hmem : decide (j ∈ j :: rest) = true := by simp
        have hnomem : decide (j ∈ rest) = false := by simpa using hnotin
        rw [hmem, hnomem]
        have hgd : lights.getD j false = lights.get ⟨j, hi⟩ := by
          rw [List.getD_eq_getElem _ _ hi]
          simp
        rw [hgd]
        cases lights.get ⟨j, hi⟩ <;> rfl
      · rw [getD_set_other hji]
        have : decide (j ∈ i :: rest) = decide (j ∈ rest) := by
          simp [List.mem_cons, hji]
        rw [this]

theorem applyCombo_spec : ∀ (pairs : List (Bool × List Nat)) (lights : List Bool),
    (∀ pb ∈ pairs, pb.2.Nodup ∧ ∀ i ∈ pb.2, i < lights.length) →
    ∃ L, applyCombo pairs lights = some L ∧ L.length = lights.length ∧
      ∀ j, j < lights.length →
        L.getD j false = xor (lights.getD j false) (pairsParity pairs j) := by
  intro pairs
  induction pairs with
  | nil =>
    intro lights _
    exact ⟨lights, rfl, rfl, fun j _ => by simp [pairsParity]⟩
  | cons pb rest ih =>
    intro lights hcond
    rcases pb with ⟨press, b⟩
    rcases hcond (press, b) (List.mem_cons_self _ _) with ⟨hnd, hrange⟩
    cases press with
    | false =>
      rcases ih lights (fun q hq => hcond q (List.mem_cons_of_mem _ hq)) with
        ⟨L, hL, hlen, hget⟩
      refine ⟨L, hL, hlen, ?_⟩
      intro j hj
      rw [hget j hj]
      simp [pairsParity]
    | true =>
      rcases applyButton_spec b lights hnd hrange with ⟨L1, hL1, hlen1, hget1⟩
      rcases ih L1 (fun q hq => by
        rw [hlen1]
        exact hcond q (List.mem_cons_of_mem _ hq)) with ⟨L, hL, hlen, hget⟩
      refine ⟨L, ?_, by rw [hlen, hlen1], ?_⟩
      · show (match applyButton lights b with
          | none => none
          | some l2 => applyCombo rest l2) = some L
        rw [hL1]
        exact hL
      · intro j hj
        have hj1 : j < L1.length := by rw [hlen1]; exact hj
        rw [hget j hj1, hget1 j hj]
        simp only [pairsParity, Bool.true_and]
        rw [Bool.xor_assoc]

theorem dotXor_shift_front {f g u v : Nat → Bool}
    (hf : ∀ c, u c = f (c + 1)) (hg : ∀ c, v c = g (c + 1)) : ∀ len,
    dotXor f g 0 (len + 1) = xor (f 0 && g 0) (dotXor u v 0 len) := by
  intro len
  induction len with
  | zero => simp [dotXor, Bool.xor_comm]
  | succ n ih =>
    show xor (dotXor f g 0 (n + 1)) (f (0 + (n + 1)) && g (0 + (n + 1))) = _
    rw [ih]
    show _ = xor (f 0 && g 0) (xor (dotXor u v 0 n) (u (0 + n) && v (0 + n)))
    rw [Bool.xor_assoc, hf (0 + n), hg (0 + n)]
    have h01 : 0 + n + 1 = 0 + (n + 1) := by omega
    rw [h01]

theorem pairsParity_eq_comboLight : ∀ (buttons : List (List Nat)) (combination : List Bool),
    combination.length = buttons.length → ∀ j,
    pairsParity (combination.zip buttons) j =
      comboLight buttons (fun k => combination.getD k false) j := by
  intro buttons
  induction buttons with
  | nil =>
    intro combination hlen j
    rw [List.length_eq_zero.mp hlen]
    rfl
  | cons b bs ih =>
    intro combination hlen j
    match combination, hlen with
    | c0 :: cs, hlen =>
      have hlen2 : cs.length = bs.length := by simpa using hlen
      show xor (c0 && decide (j ∈ b)) (pairsParity (cs.zip bs) j) = _
      rw [ih cs hlen2 j]
      show _ = dotXor (fun k => decide (j ∈ (b :: bs).getD k []))
        (fun k => (c0 :: cs).getD k false) 0 (bs.length + 1)
      rw [dotXor_shift_front
        (f := fun k => decide (j ∈ (b :: bs).getD k []))
        (g := fun k => (c0 :: cs).getD k false)
        (u := fun k => decide (j ∈ bs.getD k []))
        (v := fun k => cs.getD k false)
        (fun c => rfl) (fun c => rfl) bs.length]
      show xor (c0 && decide (j ∈ b)) _ = xor (decide (j ∈ b) && c0) _
      rw [Bool.and_comm]
      rfl

theorem length_of_mem_allBools : ∀ {k : Nat} {l : List Bool}, l ∈ allBools k → l.length = k := by
  intro k
  induction k with
  | zero =>
    intro l hl
    simp [allBools] at hl
    simp [hl]
  | succ n ih =>
    intro l hl
    rcases List.mem_append.mp hl with h | h <;>
      rcases List.mem_map.mp h with ⟨t, ht, he⟩ <;>
      subst he <;> simp [ih ht]

theorem list_eq_iff_getD {l1 l2 : List Bool} (hlen : l1.length = l2.length) :
    l1 = l2 ↔ ∀ j, j < l1.length → l1.getD j false = l2.getD j false := by
  constructor
  · intro h j _; rw [h]
  · intro h
    apply List.ext_getElem hlen
    intro i h1 h2
    have := h i h1
    rwa [List.getD_eq_getElem _ _ h1, List.getD_eq_getElem _ _ h2] at this

theorem apply_buttons_spec {buttons : List (List Nat)} {target : List Bool}
    {combo : List Bool}
    (hnodup : ∀ b ∈ buttons, b.Nodup)
    (hrange : ∀ b ∈ buttons, ∀ i ∈ b, i < target.length)
    (hlen : combo.length = buttons.length) :
    ∃ res, apply_buttons combo buttons target.length = some res ∧
      res.length = target.length ∧
      (res = target ↔ SolvesL buttons target combo) := by
  have hcond : ∀ pb ∈ combo.zip buttons, pb.2.Nodup ∧
      ∀ i ∈ pb.2, i < (List.replicate target.length false).length := by
    intro pb hpb
    have hb : pb.2 ∈ buttons := (List.of_mem_zip hpb).2
    refine ⟨hnodup _ hb, ?_⟩
    intro i hi
    rw [List.length_replicate]
    exact hrange _ hb i hi
  rcases applyCombo_spec (combo.zip buttons) (List.replicate target.length false) hcond with
    ⟨res, hres, hlen2, hget⟩
  rw [List.length_replicate] at hlen2
  refine ⟨res, hres, hlen2, ?_⟩
  rw [list_eq_iff_getD (by rw [hlen2])]
  have hgetD : ∀ j, j < target.length →
      res.getD j false = comboLight buttons (fun k => combo.getD k false) j := by
    intro j hj
    have hrep : (List.replicate target.length false).getD j false = false := by
      rw [List.getD_eq_getElem _ _ (by simpa using hj)]
      simp
    have := hget j (by rw [List.length_replicate]; exact hj)
    rw [hrep] at this
    rw [this, pairsParity_eq_comboLight buttons combo hlen j]
    simp
  constructor
  · intro h i hi
    rw [← hgetD i hi]
    exact h i (by rw [hlen2]; exact hi)
  · intro h j hj
    rw [hlen2] at hj
    rw [hgetD j hj]
    exact h j hj

theorem find_go_spec {buttons : List (List Nat)} {target : List Bool}
    (hnodup : ∀ b ∈ buttons, b.Nodup)
    (hrange : ∀ b ∈ buttons, ∀ i ∈ b, i < target.length) :
    ∀ combos : List (List Bool), (∀ c ∈ combos, c.length = buttons.length) →
      find_go target buttons target.length combos =
        some ((combos.filter fun c => decide (SolvesL buttons target c)).map pressWeight) := by
  intro combos
  induction combos with
  | nil => intro _; rfl
  | cons combo rest ih =>
    intro hlen
    rcases apply_buttons_spec hnodup hrange (hlen combo (List.mem_cons_self _ _)) with
      ⟨res, hres, _, hiff⟩
    have hih := ih fun c hc => hlen c (List.mem_cons_of_mem _ hc)
    simp only [find_go, hres, hih]
    by_cases hsol : SolvesL buttons target combo
    · rw [if_pos (hiff.mpr hsol)]
      simp [List.filter_cons, hsol]
    · rw [if_neg (fun h => hsol (hiff.mp h))]
      simp [List.filter_cons, hsol]

/-- On a solvable machine with in-range, duplicate-free buttons, the exhaustive
`2^n` search and the Gaussian-elimination solver agree. -/
theorem find_min_eq_solve_part1 {buttons : List (List Nat)} {target : List Bool}
    (hnodup : ∀ b ∈ buttons, b.Nodup)
    (hrange : ∀ b ∈ buttons, ∀ i ∈ b, i < target.length)
    (hcons : ∃ x : List Bool, x.length = buttons.length ∧ SolvesL buttons target x) :
    find_min_presses target buttons target.length =
      some (solve_machine_part1 buttons target) := by
  rw [find_min_presses,
    find_go_spec hnodup hrange (allBools buttons.length) fun c hc => length_of_mem_allBools hc]
  rcases solve_part1_list_spec hcons with ⟨⟨x0, hx0len, hx0sol, hx0w⟩, hmin⟩
  have hx0mem : x0 ∈ (allBools buttons.length).filter
      fun c => decide (SolvesL buttons target c) := by
    rw [List.mem_filter]
    exact ⟨mem_allBools_of_length hx0len, by simpa using hx0sol⟩
  have hwmem : pressWeight x0 ∈ ((allBools buttons.length).filter
      fun c => decide (SolvesL buttons target c)).map pressWeight :=
    List.mem_map_of_mem _ hx0mem
  have hne : ((allBools buttons.length).filter
      fun c => decide (SolvesL buttons target c)).map pressWeight ≠ [] := by
    intro h
    rw [h] at hwmem
    cases hwmem
  rcases listMin0_spec hne with ⟨hmem, hlb⟩
  rcases List.mem_map.mp hmem with ⟨xmin, hxminmem, hxminw⟩
  rw [List.mem_filter] at hxminmem
  have hxminsol : SolvesL buttons target xmin := by simpa using hxminmem.2
  have hxminlen : xmin.length = buttons.length := length_of_mem_allBools hxminmem.1
  have h1 : solve_machine_part1 buttons target ≤
      listMin0 (((allBools buttons.length).filter
        fun c => decide (SolvesL buttons target c)).map pressWeight) := by
    rw [← hxminw]
    exact hmin xmin hxminlen hxminsol
  have h2 : listMin0 (((allBools buttons.length).filter
      fun c => decide (SolvesL buttons target c)).map pressWeight) ≤
      solve_machine_part1 buttons target := by
    rw [← hx0w]
    exact hlb _ hwmem
  rw [Option.map_some']
  have heq : listMin0 (((allBools buttons.length).filter
      fun c => decide (SolvesL buttons target c)).map pressWeight) =
      solve_machine_part1 buttons target := Nat.le_antisymm h2 h1
  rw [heq]

theorem runSeq_append (targets : List Nat) (buttons : List (List Nat)) :
    ∀ (l1 l2 : List Nat) (s : List Nat),
      runSeq targets buttons s (l1 ++ l2) =
        (runSeq targets buttons s l1).bind fun s1 => runSeq targets buttons s1 l2 := by
  intro l1
  induction l1 with
  | nil => intro l2 s; rfl
  | cons j rest ih =>
    intro l2 s
    by_cases hj : j < buttons.length
    · rcases hpress : pressButton targets s (buttons.getD j []) with u | r
      · rw [List.getD_eq_getElem _ _ (by simpa using hj)] at hpress
        simp [runSeq, hj, hpress]
      · rcases r with _ | ns
        · rw [List.getD_eq_getElem _ _ (by simpa using hj)] at hpress
          simp [runSeq, hj, hpress]
        · rw [List.getD_eq_getElem _ _ (by simpa using hj)] at hpress
          simp [runSeq, hj, hpress, ih]
    · simp [runSeq, hj]

theorem reachedBy_press {targets : List Nat} {buttons : List (List Nat)}
    {state ns : List Nat} {presses j : Nat}
    (hr : ReachedBy targets buttons state presses)
    (hj : j < buttons.length)
    (hpress : pressButton targets state (buttons.getD j []) = Except.ok (some ns)) :
    ReachedBy targets buttons ns (presses + 1) := by
  rcases hr with ⟨seq, hlen, hrun⟩
  refine ⟨seq ++ [j], by simp [hlen], ?_⟩
  rw [runSeq_append, hrun]
  show runSeq targets buttons state [j] = some ns
  show (if j < buttons.length then
      match pressButton targets state (buttons.getD j []) with
      | Except.ok (some ns) => runSeq targets buttons ns []
      | _ => none
    else none) = some ns
  rw [if_pos hj, hpress]
  rfl

theorem pressButton_bounded {targets : List Nat} : ∀ (b : List Nat) (s ns : List Nat),
    BoundedState s targets → pressButton targets s b = Except.ok (some ns) →
    BoundedState ns targets := by
  intro b
  induction b with
  | nil =>
    intro s ns hb hp
    cases hp
    exact hb
  | cons idx rest ih =>
    intro s ns hb hp
    rw [pressButton] at hp
    rcases Nat.lt_or_ge idx s.length with hidx | hidx
    · rw [dif_pos hidx] at hp
      rcases Nat.lt_or_ge (targets.getD idx 0)
          ((s.set idx (s.get ⟨idx, hidx⟩ + 1)).getD idx 0) with hgt | hle
      · rw [if_pos hgt] at hp
        cases hp
      · rw [if_neg (by omega)] at hp
        refine ih _ ns ?_ hp
        intro i
        by_cases hi : i = idx
        · subst hi
          omega
        · rw [getD_set_other hi]
          exact hb i
    · rw [dif_neg (by omega)] at hp
      cases hp

/-! ### Soundness of the search loop: a returned count is a real press count -/

theorem minEntry_mem : ∀ (rest : List (Nat × Nat × List Nat)) (e : Nat × Nat × List Nat),
    minEntry e rest ∈ e :: rest := by
  intro rest
  induction rest with
  | nil => intro e; simp [minEntry]
  | cons f fs ih =>
    intro e
    show minEntry (if entryLtB f e then f else e) fs ∈ e :: f :: fs
    rcases List.mem_cons.mp (ih (if entryLtB f e then f else e)) with h | h
    · rw [h]
      by_cases hc : entryLtB f e = true
      · rw [if_pos hc]; simp
      · rw [if_neg hc]; simp
    · exact List.mem_cons_of_mem _ (List.mem_cons_of_mem _ h)

theorem popMin_mem {heap : List (Nat × Nat × List Nat)} {e : Nat × Nat × List Nat}
    {h2 : List (Nat × Nat × List Nat)} (h : popMin heap = some (e, h2)) : e ∈ heap := by
  match heap, h with
  | f :: rest, h =>
    have : e = minEntry f rest ∧ h2 = (f :: rest).eraseP (fun x => x == minEntry f rest) := by
      rw [popMin] at h
      exact ⟨(Prod.mk.injEq _ _ _ _ ▸ Option.some.inj h).1.symm,
        (Prod.mk.injEq _ _ _ _ ▸ Option.some.inj h).2.symm⟩
    rw [this.1]
    exact minEntry_mem rest f

theorem popMin_rest_subset {heap : List (Nat × Nat × List Nat)} {e : Nat × Nat × List Nat}
    {h2 : List (Nat × Nat × List Nat)} (h : popMin heap = some (e, h2)) :
    ∀ x ∈ h2, x ∈ heap := by
  match heap, h with
  | f :: rest, h =>
    have he2 : h2 = (f :: rest).eraseP (fun x => x == minEntry f rest) := by
      rw [popMin] at h
      exact (Prod.mk.injEq _ _ _ _ ▸ Option.some.inj h).2.symm
    intro x hx
    rw [he2] at hx
    exact List.Sublist.mem hx (List.eraseP_sublist _)

/-- `expand` only pushes states freshly produced by one more legal press from
the popped state: every entry of the produced heap either was already good or
records a really reachable state with its true press count. -/
theorem expand_sound {targets : List Nat} {buttons : List (List Nat)}
    {presses : Nat} {state : List Nat} :
    ∀ (bl : List (List Nat)) (j0 : Nat) (heap : List (Nat × Nat × List Nat))
      (visited : List (List Nat × Nat)),
      bl = buttons.drop j0 →
      ReachedBy targets buttons state presses →
      (∀ e ∈ heap, ReachedBy targets buttons e.2.2 e.2.1) →
      ∀ {h2 : List (Nat × Nat × List Nat)} {v2 : List (List Nat × Nat)},
        expand targets presses state bl heap visited = Except.ok (h2, v2) →
        ∀ e ∈ h2, ReachedBy targets buttons e.2.2 e.2.1 := by
  intro bl
  induction bl with
  | nil =>
    intro j0 heap visited _ _ hheap h2 v2 hexp e he
    cases hexp
    exact hheap e he
  | cons button rest ih =>
    intro j0 heap visited hdrop hstate hheap h2 v2 hexp e he
    rcases drop_cons_facts (d := ([] : List Nat)) hdrop.symm with ⟨hj0, hbj0, hrest⟩
    rcases hpress : pressButton targets state button with u | r
    · simp only [expand, hpress] at hexp
      cases hexp
    · rcases r with _ | ns
      · simp only [expand, hpress] at hexp
        exact ih (j0 + 1) heap visited hrest hstate hheap hexp e he
      · have hgood : ReachedBy targets buttons ns (presses + 1) :=
          reachedBy_press hstate hj0 (by rw [hbj0]; exact hpress)
        have hpushed : ∀ hp : List (Nat × Nat × List Nat),
            (∀ x ∈ hp, ReachedBy targets buttons x.2.2 x.2.1) →
            ∀ x ∈ hp ++ [(presses + 1 + heuristic ns targets, presses + 1, ns)],
              ReachedBy targets buttons x.2.2 x.2.1 := by
          intro hp hhp x hx
          rcases List.mem_append.mp hx with h | h
          · exact hhp x h
          · simp at h
            rw [h]
            exact hgood
        rcases hlook : lookupV ns visited with _ | g
        · simp only [expand, hpress, hlook] at hexp
          exact ih (j0 + 1) _ _ hrest hstate (hpushed heap hheap) hexp e he
        · simp only [expand, hpress, hlook] at hexp
          by_cases hcmp : g > presses + 1
          · rw [if_pos hcmp] at hexp
            exact ih (j0 + 1) _ _ hrest hstate (hpushed heap hheap) hexp e he
          · rw [if_neg hcmp] at hexp
            exact ih (j0 + 1) _ _ hrest hstate hheap hexp e he

theorem astarLoop_sound {targets : List Nat} {buttons : List (List Nat)} :
    ∀ (fuel : Nat) (heap : List (Nat × Nat × List Nat)) (visited : List (List Nat × Nat))
      (p : Int),
      (∀ e ∈ heap, ReachedBy targets buttons e.2.2 e.2.1) →
      astarLoop targets buttons fuel heap visited = some (Except.ok p) →
      0 ≤ p →
      ReachedBy targets buttons targets p.toNat := by
  intro fuel
  induction fuel with
  | zero =>
    intro heap visited p _ h _
    cases h
  | succ n ih =>
    intro heap visited p hheap hloop hp
    rcases hpop : popMin heap with _ | epair
    · simp only [astarLoop, astarStep, hpop] at hloop
      have hpe : (-1 : Int) = p := Except.ok.inj (Option.some.inj hloop)
      omega
    · rcases epair with ⟨⟨est, presses, state⟩, heap2⟩
      simp only [astarLoop, astarStep, hpop] at hloop
      by_cases hgoal : state = targets
      · rw [if_pos hgoal] at hloop
        simp only [] at hloop
        have hpe : (presses : Int) = p := Except.ok.inj (Option.some.inj hloop)
        have hmem := popMin_mem hpop
        have hgood := hheap _ hmem
        rw [hgoal] at hgood
        rw [← hpe, Int.toNat_natCast]
        exact hgood
      · rw [if_neg hgoal] at hloop
        have hsub := popMin_rest_subset hpop
        rcases hstale : staleB state visited presses with _ | _
        · rw [hstale] at hloop
          rw [if_neg (by simp)] at hloop
          rcases hexp : expand targets presses state buttons heap2 visited with u | pr
          · simp only [hexp] at hloop
            cases hloop
          · rcases pr with ⟨h2, v2⟩
            simp only [hexp] at hloop
            have hgoodpop := hheap _ (popMin_mem hpop)
            have hgood2 := expand_sound buttons 0 heap2 visited (by simp) hgoodpop
              (fun e he => hheap e (hsub e he)) hexp
            exact ih h2 v2 p hgood2 hloop hp
        · rw [hstale] at hloop
          rw [if_pos rfl] at hloop
          exact ih heap2 visited p (fun e he => hheap e (hsub e he)) hloop hp

/-- Whenever the search returns a non-negative press count, that count is the
length of a real legal press sequence from the all-zero start to the targets. -/
theorem astar_sound {fuel : Nat} {targets : List Nat} {buttons : List (List Nat)} {p : Int}
    (h : astar_min_presses fuel targets buttons targets.length = some (Except.ok p))
    (hp : 0 ≤ p) : ReachedBy targets buttons targets p.toNat := by
  rw [astar_min_presses] at h
  by_cases hst : List.replicate targets.length 0 = targets
  · rw [if_pos hst] at h
    have hpe : (0 : Int) = p := Except.ok.inj (Option.some.inj h)
    rw [← hpe]
    exact ⟨[], rfl, by rw [hst]; rfl⟩
  · rw [if_neg hst] at h
    refine astarLoop_sound fuel _ _ p ?_ h hp
    intro e he
    simp at he
    rw [he]
    exact ⟨[], rfl, rfl⟩

theorem expand_bounded {targets : List Nat} {presses : Nat} {state : List Nat} :
    ∀ (bl : List (List Nat)) (heap : List (Nat × Nat × List Nat))
      (visited : List (List Nat × Nat)),
      BoundedState state targets →
      (∀ e ∈ heap, BoundedState e.2.2 targets) →
      (∀ pr ∈ visited, BoundedState pr.1 targets) →
      ∀ {h2 : List (Nat × Nat × List Nat)} {v2 : List (List Nat × Nat)},
        expand targets presses state bl heap visited = Except.ok (h2, v2) →
        (∀ e ∈ h2, BoundedState e.2.2 targets) ∧
          (∀ pr ∈ v2, BoundedState pr.1 targets) := by
  intro bl
  induction bl with
  | nil =>
    intro heap visited _ hheap hvis h2 v2 hexp
    cases hexp
    exact ⟨hheap, hvis⟩
  | cons button rest ih =>
    intro heap visited hstate hheap hvis h2 v2 hexp
    rcases hpress : pressButton targets state button with u | r
    · simp only [expand, hpress] at hexp
      cases hexp
    · rcases r with _ | ns
      · simp only [expand, hpress] at hexp
        exact ih heap visited hstate hheap hvis hexp
      · have hnsb : BoundedState ns targets := pressButton_bounded button state ns hstate hpress
        have hheap2 : ∀ e ∈ heap ++ [(presses + 1 + heuristic ns targets, presses + 1, ns)],
            BoundedState e.2.2 targets := by
          intro e hein
          rcases List.mem_append.mp hein with h | h
          · exact hheap e h
          · simp at h
            rw [h]
            exact hnsb
        have hvis2 : ∀ pr ∈ (ns, presses + 1) :: visited, BoundedState pr.1 targets := by
          intro pr hpr
          rcases List.mem_cons.mp hpr with h | h
          · rw [h]
            exact hnsb
          · exact hvis pr h
        rcases hlook : lookupV ns visited with _ | g
        · simp only [expand, hpress, hlook] at hexp
          exact ih _ _ hstate hheap2 hvis2 hexp
        · simp only [expand, hpress, hlook] at hexp
          by_cases hcmp : g > presses + 1
          · rw [if_pos hcmp] at hexp
            exact ih _ _ hstate hheap2 hvis2 hexp
          · rw [if_neg hcmp] at hexp
            exact ih _ _ hstate hheap hvis hexp

theorem astarIter_bounded {targets : List Nat} {buttons : List (List Nat)} :
    ∀ (n : Nat) (heap : List (Nat × Nat × List Nat)) (visited : List (List Nat × Nat)),
      (∀ e ∈ heap, BoundedState e.2.2 targets) →
      (∀ pr ∈ visited, BoundedState pr.1 targets) →
      ∀ {h2 : List (Nat × Nat × List Nat)} {v2 : List (List Nat × Nat)},
        astarIter targets buttons n heap visited = some (h2, v2) →
        (∀ e ∈ h2, BoundedState e.2.2 targets) ∧
          (∀ pr ∈ v2, BoundedState pr.1 targets) := by
  intro n
  induction n with
  | zero =>
    intro heap visited hheap hvis h2 v2 hit
    cases hit
    exact ⟨hheap, hvis⟩
  | succ k ih =>
    intro heap visited hheap hvis h2 v2 hit
    rcases hpop : popMin heap with _ | epair
    · simp only [astarIter, astarStep, hpop] at hit
      cases hit
    · rcases epair with ⟨⟨est, presses, state⟩, heap2⟩
      simp only [astarIter, astarStep, hpop] at hit
      have hsub := popMin_rest_subset hpop
      have hheap2 : ∀ e ∈ heap2, BoundedState e.2.2 targets :=
        fun e he => hheap e (hsub e he)
      by_cases hgoal : state = targets
      · rw [if_pos hgoal] at hit
        cases hit
      · rw [if_neg hgoal] at hit
        rcases hstale : staleB state visited presses with _ | _
        · rw [hstale] at hit
          rw [if_neg (by simp)] at hit
          rcases hexp : expand targets presses state buttons heap2 visited with u | pr
          · simp only [hexp] at hit
            cases hit
          · rcases pr with ⟨hh, vv⟩
            simp only [hexp] at hit
            have hpopb : BoundedState state targets := by
              have := hheap _ (popMin_mem hpop)
              exact this
            rcases expand_bounded buttons heap2 visited hpopb hheap2 hvis hexp with ⟨hb1, hb2⟩
            exact ih hh vv hb1 hb2 hit
        · rw [hstale] at hit
          rw [if_pos rfl] at hit
          exact ih heap2 visited hheap2 hvis hit

/-- The search never materializes a state exceeding the targets: every heap
entry and every visited binding of every reachable loop configuration is
componentwise bounded by the target vector. -/
theorem astar_states_bounded {targets : List Nat} {buttons : List (List Nat)} {n : Nat}
    {h2 : List (Nat × Nat × List Nat)} {v2 : List (List Nat × Nat)}
    (hit : astarIter targets buttons n
      [(heuristic (List.replicate targets.length 0) targets, 0,
        List.replicate targets.length 0)]
      [(List.replicate targets.length 0, 0)] = some (h2, v2)) :
    (∀ e ∈ h2, BoundedState e.2.2 targets) ∧
      (∀ pr ∈ v2, BoundedState pr.1 targets) := by
  have hzero : BoundedState (List.replicate targets.length 0) targets := by
    intro i
    by_cases hi : i < targets.length
    · rw [List.getD_eq_getElem _ _ (by simpa using hi)]
      simp
    · rw [List.getD_eq_default _ _ (by simpa using hi)]
      exact Nat.zero_le _
  refine astarIter_bounded n _ _ ?_ ?_ hit
  · intro e he
    simp at he
    rw [he]
    exact hzero
  · intro pr hpr
    simp at hpr
    have : pr.1 = List.replicate targets.length 0 := by
      rcases pr with ⟨a, b⟩
      simp at hpr
      exact hpr.1
    rw [this]
    exact hzero

/-! ### The search heuristic: deficit sums versus press counts -/

theorem pressButton_length {targets : List Nat} : ∀ (b : List Nat) (s ns : List Nat),
    pressButton targets s b = Except.ok (some ns) → ns.length = s.length := by
  intro b
  induction b with
  | nil =>
    intro s ns hp
    cases hp
    rfl
  | cons idx rest ih =>
    intro s ns hp
    rw [pressButton] at hp
    rcases Nat.lt_or_ge idx s.length with hidx | hidx
    · rw [dif_pos hidx] at hp
      rcases Nat.lt_or_ge (targets.getD idx 0)
          ((s.set idx (s.get ⟨idx, hidx⟩ + 1)).getD idx 0) with hgt | hle
      · rw [if_pos hgt] at hp
        cases hp
      · rw [if_neg (by omega)] at hp
        have := ih _ ns hp
        rwa [List.length_set] at this
    · rw [dif_neg (by omega)] at hp
      cases hp

theorem sum_set_succ : ∀ (s : List Nat) (i : Nat) (h : i < s.length),
    (s.set i (s.get ⟨i, h⟩ + 1)).sum = s.sum + 1 := by
  intro s
  induction s with
  | nil => intro i h; exact absurd h (by simp)
  | cons x xs ih =>
    intro i h
    cases i with
    | zero => simp [List.sum_cons]; omega
    | succ n =>
      have hn : n < xs.length := by simpa using h
      show (x :: xs.set n _).sum = (x :: xs).sum + 1
      rw [List.sum_cons, List.sum_cons]
      have hge : (x :: xs).get ⟨n + 1, h⟩ = xs.get ⟨n, hn⟩ := rfl
      rw [hge, ih n hn]
      omega

theorem pressButton_sum {targets : List Nat} : ∀ (b : List Nat) (s ns : List Nat),
    pressButton targets s b = Except.ok (some ns) → ns.sum = s.sum + b.length := by
  intro b
  induction b with
  | nil =>
    intro s ns hp
    cases hp
    simp
  | cons idx rest ih =>
    intro s ns hp
    rw [pressButton] at hp
    rcases Nat.lt_or_ge idx s.length with hidx | hidx
    · rw [dif_pos hidx] at hp
      rcases Nat.lt_or_ge (targets.getD idx 0)
          ((s.set idx (s.get ⟨idx, hidx⟩ + 1)).getD idx 0) with hgt | hle
      · rw [if_pos hgt] at hp
        cases hp
      · rw [if_neg (by omega)] at hp
        have := ih _ ns hp
        rw [this, sum_set_succ s idx hidx]
        simp
        omega
    · rw [dif_neg (by omega)] at hp
      cases hp

theorem heuristic_cons (a b : Nat) (s t : List Nat) :
    heuristic (a :: s) (b :: t) = (b - a) + heuristic s t := by
  show ((List.range (s.length + 1)).map fun i =>
      (b :: t).getD i 0 - (a :: s).getD i 0).sum = _
  rw [List.range_succ_eq_map, List.map_cons, List.map_map, List.sum_cons]
  rfl

theorem heuristic_eq_sum_sub : ∀ (s t : List Nat), s.length = t.length →
    BoundedState s t → heuristic s t + s.sum = t.sum := by
  intro s
  induction s with
  | nil =>
    intro t hlen _
    have : t = [] := by
      cases t
      · rfl
      · simp at hlen
    rw [this]
    rfl
  | cons a s2 ih =>
    intro t hlen hb
    match t, hlen with
    | b :: t2, hlen =>
      have hlen2 : s2.length = t2.length := by simpa using hlen
      have hb0 : a ≤ b := by
        have := hb 0
        simpa using this
      have hbtail : BoundedState s2 t2 := by
        intro i
        have := hb (i + 1)
        simpa using this
      rw [heuristic_cons, List.sum_cons, List.sum_cons]
      have := ih t2 hlen2 hbtail
      omega

/-- A legal press decreases the deficit sum by exactly the number of touched
counters — which can exceed the unit edge cost. -/
theorem heuristic_press_drop {targets : List Nat} {s ns : List Nat} {b : List Nat}
    (hlen : s.length = targets.length) (hb : BoundedState s targets)
    (hpress : pressButton targets s b = Except.ok (some ns)) :
    heuristic s targets = heuristic ns targets + b.length := by
  have hnsb : BoundedState ns targets := pressButton_bounded b s ns hb hpress
  have hnslen : ns.length = targets.length := by
    rw [pressButton_length b s ns hpress]
    exact hlen
  have h1 := heuristic_eq_sum_sub s targets hlen hb
  have h2 := heuristic_eq_sum_sub ns targets hnslen hnsb
  have h3 := pressButton_sum b s ns hpress
  omega

/-- The deficit-sum heuristic is an over-estimate: every legal press sequence
from a bounded state to the targets is at most `heuristic` long (each press
supplies at least one of the missing unit increments). -/
theorem heuristic_ge_remaining {targets : List Nat} {buttons : List (List Nat)}
    (hne : ∀ b ∈ buttons, b ≠ []) :
    ∀ (seq : List Nat) (s : List Nat), s.length = targets.length →
      BoundedState s targets →
      runSeq targets buttons s seq = some targets →
      seq.length ≤ heuristic s targets := by
  intro seq
  induction seq with
  | nil =>
    intro s _ _ _
    exact Nat.zero_le _
  | cons j rest ih =>
    intro s hlen hb hrun
    rw [runSeq] at hrun
    by_cases hj : j < buttons.length
    · rw [if_pos hj] at hrun
      rcases hpress : pressButton targets s (buttons.getD j []) with u | r
      · rw [hpress] at hrun
        cases hrun
      · rcases r with _ | ns
        · rw [hpress] at hrun
          cases hrun
        · rw [hpress] at hrun
          have hnsb : BoundedState ns targets :=
            pressButton_bounded _ s ns hb hpress
          have hnslen : ns.length = targets.length := by
            rw [pressButton_length _ s ns hpress]
            exact hlen
          have htail := ih ns hnslen hnsb hrun
          have hdrop := heuristic_press_drop hlen hb hpress
          have hblen : (buttons.getD j []).length ≥ 1 := by
            have hmem : buttons.getD j [] ∈ buttons := getD_mem_of_lt hj
            have := hne _ hmem
            cases hgd : buttons.getD j [] with
            | nil => exact absurd hgd this
            | cons y ys => simp [hgd]
          simp only [List.length_cons]
          omega
    · rw [if_neg hj] at hrun
      cases hrun

/-! ### Greedy solver: termination and validity of the chosen presses -/

theorem scoreAux_some_elig {targets current : List Nat} :
    ∀ (b : List Nat) (helps total sc : Nat),
      scoreAux targets current b helps total = Except.ok (some sc) →
      ∀ ci ∈ b, ci < current.length ∧ current.getD ci 0 < targets.getD ci 0 := by
  intro b
  induction b with
  | nil => intro helps total sc _ ci hci; cases hci
  | cons c0 rest ih =>
    intro helps total sc hsc ci hci
    rw [scoreAux] at hsc
    rcases Nat.lt_or_ge c0 current.length with hc0 | hc0
    · rw [if_pos hc0] at hsc
      rcases Nat.lt_or_ge (current.getD c0 0) (targets.getD c0 0) with hlt | hge
      · rw [if_neg (by omega), if_pos hlt] at hsc
        rcases List.mem_cons.mp hci with h | h
        · subst h
          exact ⟨hc0, hlt⟩
        · exact ih _ _ sc hsc ci h
      · rw [if_pos (by omega)] at hsc
        cases hsc
    · rw [if_neg (by omega)] at hsc
      cases hsc

theorem scoreAux_no_error {targets current : List Nat} :
    ∀ (b : List Nat) (helps total : Nat),
      (∀ ci ∈ b, ci < current.length) →
      scoreAux targets current b helps total ≠ Except.error () := by
  intro b
  induction b with
  | nil => intro helps total _ h; cases h
  | cons c0 rest ih =>
    intro helps total hrange h
    rw [scoreAux] at h
    have hc0 : c0 < current.length := hrange c0 (List.mem_cons_self _ _)
    rw [if_pos hc0] at h
    rcases Nat.lt_or_ge (current.getD c0 0) (targets.getD c0 0) with hlt | hge
    · rw [if_neg (by omega), if_pos hlt] at h
      exact ih _ _ (fun ci hci => hrange ci (List.mem_cons_of_mem _ hci)) h
    · rw [if_pos (by omega)] at h
      cases h

theorem pickBest_spec {targets current : List Nat} (buttons : List (List Nat)) :
    ∀ (bl : List (List Nat)) (idx : Nat) (best : Option (Nat × Nat)),
      bl = buttons.drop idx →
      (∀ pr, best = some pr → pr.1 < buttons.length ∧
        ∃ sc, scoreAux targets current (buttons.getD pr.1 []) 0 0 = Except.ok (some sc)) →
      ∀ {bi : Nat}, pickBest targets current bl idx best = Except.ok (some bi) →
        bi < buttons.length ∧
          ∃ sc, scoreAux targets current (buttons.getD bi []) 0 0 = Except.ok (some sc) := by
  intro bl
  induction bl with
  | nil =>
    intro idx best _ hbest bi hpick
    rw [pickBest] at hpick
    rcases best with _ | pr
    · cases hpick
    · have := Option.some.inj (Except.ok.inj hpick)
      rcases hbest pr rfl with ⟨h1, h2⟩
      rw [← this]
      exact ⟨h1, h2⟩
  | cons b rest ih =>
    intro idx best hdrop hbest bi hpick
    rcases drop_cons_facts (d := ([] : List Nat)) hdrop.symm with ⟨hidx, hbidx, hrest⟩
    rcases hsc : scoreAux targets current b 0 0 with u | r
    · simp only [pickBest, hsc] at hpick
      cases hpick
    · rcases r with _ | sc
      · simp only [pickBest, hsc] at hpick
        exact ih (idx + 1) best hrest hbest hpick
      · simp only [pickBest, hsc] at hpick
        refine ih (idx + 1) _ hrest ?_ hpick
        intro pr hpr
        by_cases hbetter : betterThan sc best = true
        · rw [if_pos hbetter] at hpr
          have hpre : pr = (idx, sc) := (Option.some.inj hpr).symm
          rw [hpre]
          refine ⟨hidx, sc, ?_⟩
          rw [hbidx]
          exact hsc
        · rw [if_neg hbetter] at hpr
          exact hbest pr hpr

theorem pickBest_no_error {targets current : List Nat} {buttons : List (List Nat)}
    (hrange : ∀ b ∈ buttons, ∀ ci ∈ b, ci < current.length) :
    ∀ (bl : List (List Nat)) (idx : Nat) (best : Option (Nat × Nat)),
      (∀ b ∈ bl, b ∈ buttons) →
      pickBest targets current bl idx best ≠ Except.error () := by
  intro bl
  induction bl with
  | nil =>
    intro idx best _ h
    rw [pickBest] at h
    rcases best with _ | pr
    · cases h
    · cases h
  | cons b rest ih =>
    intro idx best hsub h
    rcases hsc : scoreAux targets current b 0 0 with u | r
    · exact scoreAux_no_error b 0 0 (hrange b (hsub b (List.mem_cons_self _ _))) hsc
    · rcases r with _ | sc
      · simp only [pickBest, hsc] at h
        exact ih (idx + 1) best (fun q hq => hsub q (List.mem_cons_of_mem _ hq)) h
      · simp only [pickBest, hsc] at h
        exact ih (idx + 1) _ (fun q hq => hsub q (List.mem_cons_of_mem _ hq)) h

theorem bumpAll_eq_press {targets : List Nat} :
    ∀ (b : List Nat) (cur : List Nat), b.Nodup →
      (∀ ci ∈ b, ci < cur.length ∧ cur.getD ci 0 < targets.getD ci 0) →
      ∃ cur2, bumpAll cur b = some cur2 ∧
        pressButton targets cur b = Except.ok (some cur2) := by
  intro b
  induction b with
  | nil => intro cur _ _; exact ⟨cur, rfl, rfl⟩
  | cons ci rest ih =>
    intro cur hnd helig
    rcases helig ci (List.mem_cons_self _ _) with ⟨hci, hlt⟩
    have hset : (cur.set ci (cur.get ⟨ci, hci⟩ + 1)).getD ci 0 = cur.getD ci 0 + 1 := by
      rw [getD_set_self hci]
      congr 1
      rw [List.getD_eq_getElem _ _ hci]
      rfl
    have helig2 : ∀ c2 ∈ rest, c2 < (cur.set ci (cur.get ⟨ci, hci⟩ + 1)).length ∧
        (cur.set ci (cur.get ⟨ci, hci⟩ + 1)).getD c2 0 < targets.getD c2 0 := by
      intro c2 hc2
      have hne : c2 ≠ ci := by
        intro he
        subst he
        exact (List.nodup_cons.mp hnd).1 hc2
      rcases helig c2 (List.mem_cons_of_mem _ hc2) with ⟨h1, h2⟩
      rw [List.length_set, getD_set_other hne]
      exact ⟨h1, h2⟩
    rcases ih (cur.set ci (cur.get ⟨ci, hci⟩ + 1)) (List.nodup_cons.mp hnd).2 helig2 with
      ⟨cur2, hbump, hpress⟩
    refine ⟨cur2, ?_, ?_⟩
    · rw [bumpAll, dif_pos hci]
      exact hbump
    · rw [pressButton, dif_pos hci, if_neg (by rw [hset]; omega)]
      exact hpress

theorem sum_le_of_bounded {s t : List Nat} (hlen : s.length = t.length)
    (hb : BoundedState s t) : s.sum ≤ t.sum := by
  have := heuristic_eq_sum_sub s t hlen hb
  omega

/-- The greedy loop with `targets.sum + 1` fuel always returns: either `-1`
("no eligible button") or a press count realized by its own (legal) presses. -/
theorem greedyLoop_spec {targets : List Nat} {buttons : List (List Nat)}
    (hnodup : ∀ b ∈ buttons, b.Nodup)
    (hrange : ∀ b ∈ buttons, ∀ ci ∈ b, ci < targets.length)
    (hnonempty : ∀ b ∈ buttons, b ≠ []) :
    ∀ (fuel : Nat) (current : List Nat) (presses : Nat),
      current.length = targets.length →
      BoundedState current targets →
      fuel + current.sum > targets.sum →
      ReachedBy targets buttons current presses →
      ∃ r, greedyLoop targets buttons fuel current presses = some r ∧
        (r = Except.ok (-1) ∨
          ∃ n : Nat, r = Except.ok (n : Int) ∧ ReachedBy targets buttons targets n) := by
  intro fuel
  induction fuel with
  | zero =>
    intro current presses hlen hb hfuel _
    have := sum_le_of_bounded hlen hb
    omega
  | succ k ih =>
    intro current presses hlen hb hfuel hreach
    by_cases hcur : current = targets
    · refine ⟨Except.ok (presses : Int), ?_, Or.inr ⟨presses, rfl, ?_⟩⟩
      · rw [greedyLoop, if_pos hcur]
      · rw [hcur] at hreach
        exact hreach
    · have hrange2 : ∀ b ∈ buttons, ∀ ci ∈ b, ci < current.length := by
        intro b hbm ci hci
        rw [hlen]
        exact hrange b hbm ci hci
      rcases hpick : pickBest targets current buttons 0 none with u | r
      · exfalso
        cases u
        exact pickBest_no_error hrange2 buttons 0 none (fun q hq => hq) hpick
      · rcases r with _ | bi
        · refine ⟨Except.ok (-1), ?_, Or.inl rfl⟩
          rw [greedyLoop, if_neg hcur]
          simp only [hpick]
        · rcases pickBest_spec buttons buttons 0 none
            (List.drop_zero buttons).symm (fun pr hpr => by cases hpr) hpick with
            ⟨hbi, sc, hsc⟩
          have helig := scoreAux_some_elig _ 0 0 sc hsc
          have hmem : buttons.getD bi [] ∈ buttons := getD_mem_of_lt hbi
          rcases bumpAll_eq_press (buttons.getD bi []) current (hnodup _ hmem)
            (fun ci hci => helig ci hci) with ⟨cur2, hbump, hpress⟩
          have hb2 : BoundedState cur2 targets :=
            pressButton_bounded _ current cur2 hb hpress
          have hlen2 : cur2.length = targets.length := by
            rw [pressButton_length _ current cur2 hpress]
            exact hlen
          have hsum2 : cur2.sum = current.sum + (buttons.getD bi []).length :=
            pressButton_sum _ current cur2 hpress
          have hblen : 1 ≤ (buttons.getD bi []).length := by
            have := hnonempty _ hmem
            cases hgd : buttons.getD bi [] with
            | nil => exact absurd hgd this
            | cons y ys => simp [hgd]
          have hreach2 : ReachedBy targets buttons cur2 (presses + 1) :=
            reachedBy_press hreach hbi hpress
          rcases ih cur2 (presses + 1) hlen2 hb2 (by omega) hreach2 with ⟨r, hr, hcase⟩
          refine ⟨r, ?_, hcase⟩
          rw [greedyLoop, if_neg hcur]
          simp only [hpick, hbump]
          exact hr

/-- Pure soundness of the greedy loop: a non-negative returned count is a real
press count (no fuel assumption). -/
theorem greedyLoop_sound {targets : List Nat} {buttons : List (List Nat)}
    (hnodup : ∀ b ∈ buttons, b.Nodup) :
    ∀ (fuel : Nat) (current : List Nat) (presses : Nat) (q : Int),
      greedyLoop targets buttons fuel current presses = some (Except.ok q) →
      0 ≤ q →
      ReachedBy targets buttons current presses →
      ReachedBy targets buttons targets q.toNat := by
  intro fuel
  induction fuel with
  | zero => intro current presses q h _ _; cases h
  | succ k ih =>
    intro current presses q h hq hreach
    by_cases hcur : current = targets
    · rw [greedyLoop, if_pos hcur] at h
      have hpe : (presses : Int) = q := Except.ok.inj (Option.some.inj h)
      rw [← hpe, Int.toNat_natCast]
      rw [hcur] at hreach
      exact hreach
    · rw [greedyLoop, if_neg hcur] at h
      rcases hpick : pickBest targets current buttons 0 none with u | r
      · simp only [hpick] at h
        cases Option.some.inj h
      · rcases r with _ | bi
        · simp only [hpick] at h
          have hq1 : (-1 : Int) = q := Except.ok.inj (Option.some.inj h)
          omega
        · simp only [hpick] at h
          rcases pickBest_spec buttons buttons 0 none
            (List.drop_zero buttons).symm (fun pr hpr => by cases hpr) hpick with
            ⟨hbi, sc, hsc⟩
          have helig := scoreAux_some_elig _ 0 0 sc hsc
          have hmem : buttons.getD bi [] ∈ buttons := getD_mem_of_lt hbi
          rcases bumpAll_eq_press (buttons.getD bi []) current (hnodup _ hmem)
            (fun ci hci => helig ci hci) with ⟨cur2, hbump, hpress⟩
          simp only [hbump] at h
          exact ih cur2 (presses + 1) q h hq (reachedBy_press hreach hbi hpress)

/-! ### Sum bookkeeping for the integer program -/

theorem sum_map_zero {α : Type} {l : List α} {f : α → Nat} (h : ∀ k ∈ l, f k = 0) :
    (l.map f).sum = 0 := by
  induction l with
  | nil => rfl
  | cons a t ih =>
    rw [List.map_cons, List.sum_cons, h a (List.mem_cons_self _ _),
      ih fun k hk => h k (List.mem_cons_of_mem _ hk)]

theorem sum_map_add_pointwise {α : Type} {l : List α} {f f2 g : α → Nat}
    (h : ∀ k ∈ l, f2 k = f k + g k) :
    (l.map f2).sum = (l.map f).sum + (l.map g).sum := by
  induction l with
  | nil => rfl
  | cons a t ih =>
    rw [List.map_cons, List.map_cons, List.map_cons, List.sum_cons, List.sum_cons,
      List.sum_cons, h a (List.mem_cons_self _ _),
      ih fun k hk => h k (List.mem_cons_of_mem _ hk)]
    omega

theorem sum_map_le_pointwise {α : Type} {l : List α} {f g : α → Nat}
    (h : ∀ k ∈ l, f k ≤ g k) : (l.map f).sum ≤ (l.map g).sum := by
  induction l with
  | nil => exact le_refl _
  | cons a t ih =>
    rw [List.map_cons, List.map_cons, List.sum_cons, List.sum_cons]
    have h1 := h a (List.mem_cons_self _ _)
    have h2 := ih fun k hk => h k (List.mem_cons_of_mem _ hk)
    omega

theorem sum_spike {n j c : Nat} (h : j < n) :
    ((List.range n).map fun k => if k = j then c else 0).sum = c := by
  induction n with
  | zero => omega
  | succ m ih =>
    rw [List.range_succ, List.map_append, List.sum_append]
    by_cases hj : j = m
    · subst hj
      rw [sum_map_zero fun k hk => by
        rw [if_neg]
        intro he
        subst he
        exact absurd (List.mem_range.mp hk) (by omega)]
      simp
    · rw [ih (by omega)]
      simp [Ne.symm hj]

theorem sum_eq_range_getD : ∀ (x : List Nat),
    ((List.range x.length).map fun j => x.getD j 0).sum = x.sum := by
  intro x
  induction x with
  | nil => rfl
  | cons a xs ih =>
    show ((List.range (xs.length + 1)).map fun j => (a :: xs).getD j 0).sum = _
    rw [List.range_succ_eq_map, List.map_cons, List.map_map, List.sum_cons]
    have hcomp : ((fun j => (a :: xs).getD j 0) ∘ Nat.succ) = fun j => xs.getD j 0 := by
      funext j
      rfl
    rw [hcomp, ih]
    rfl

theorem getD_le_sum {t : List Nat} {i : Nat} : t.getD i 0 ≤ t.sum := by
  by_cases hi : i < t.length
  · exact List.single_le_sum (fun v _ => Nat.zero_le v) _ (getD_mem_of_lt hi)
  · rw [List.getD_eq_default _ _ (by omega)]
    exact Nat.zero_le _

theorem map_range_getD2 {α : Type} (f : Nat → α) {d : α} {n j : Nat} (h : j < n) :
    ((List.range n).map f).getD j d = f j := by
  rw [List.getD_eq_getElem _ _ (by simpa using h)]
  simp

theorem mem_allVecs {bound : Nat} : ∀ {n : Nat} {x : List Nat}, x.length = n →
    (∀ v ∈ x, v < bound) → x ∈ allVecs n bound := by
  intro n
  induction n with
  | zero =>
    intro x hlen _
    rw [List.length_eq_zero.mp hlen]
    simp [allVecs]
  | succ m ih =>
    intro x hlen hb
    match x with
    | v :: t =>
      have hv : v < bound := hb v (List.mem_cons_self _ _)
      have ht : t ∈ allVecs m bound :=
        ih (by simpa using hlen) fun w hw => hb w (List.mem_cons_of_mem _ hw)
      rw [allVecs, List.mem_flatten]
      exact ⟨(allVecs m bound).map (List.cons v),
        List.mem_map_of_mem _ (List.mem_range.mpr hv), List.mem_map_of_mem _ ht⟩

/-- Every feasible point is dominated by an equally feasible point whose
components all lie below `targets.sum + 1` (zero columns forced to zero). -/
theorem feasible_dominated {buttons : List (List Nat)} {targets : List Nat} {x : List Nat}
    (hx : FeasibleILP buttons targets x) :
    ∃ x2, FeasibleILP buttons targets x2 ∧ x2.sum ≤ x.sum ∧
      x2 ∈ allVecs buttons.length (targets.sum + 1) := by
  rcases hx with ⟨hlen, hfeas⟩
  set m := targets.length with hm
  refine ⟨(List.range buttons.length).map fun j =>
    if ∀ i < m, i ∉ buttons.getD j [] then 0 else x.getD j 0, ⟨by simp, ?_⟩, ?_, ?_⟩
  · -- feasibility is unchanged: clipped rows never read the zeroed columns
    intro i hi
    rw [← hfeas i hi]
    show dotCount m buttons _ i = dotCount m buttons x i
    unfold dotCount
    congr 1
    apply List.map_congr_left
    intro j hj
    rw [List.mem_range] at hj
    by_cases hcond : i ∈ buttons.getD j [] ∧ i < m
    · rw [if_pos hcond, if_pos hcond]
      rw [map_range_getD2 _ hj]
      rw [if_neg (by push_neg; exact ⟨i, hcond.2, hcond.1⟩)]
    · rw [if_neg hcond, if_neg hcond]
  · -- componentwise at most `x`
    have hxb : buttons.length = x.length := hlen.symm
    rw [hxb]
    have h1 : ((List.range x.length).map fun j =>
        if ∀ i < m, i ∉ buttons.getD j [] then 0 else x.getD j 0).sum ≤
        ((List.range x.length).map fun j => x.getD j 0).sum := by
      apply sum_map_le_pointwise
      intro k _
      by_cases hc : ∀ i < m, i ∉ buttons.getD k []
      · rw [if_pos hc]; exact Nat.zero_le _
      · rw [if_neg hc]
    rwa [sum_eq_range_getD x] at h1
  · -- all components within the enumeration bound
    apply mem_allVecs (by simp)
    intro v hv
    rcases List.mem_map.mp hv with ⟨j, hj, hve⟩
    rw [List.mem_range] at hj
    by_cases hc : ∀ i < m, i ∉ buttons.getD j []
    · rw [if_pos hc] at hve
      omega
    · rw [if_neg hc] at hve
      push_neg at hc
      rcases hc with ⟨i, hi, hmem⟩
      have hterm : x.getD j 0 ≤ dotCount m buttons x i := by
        apply List.single_le_sum (fun v2 _ => Nat.zero_le v2)
        have : (if i ∈ buttons.getD j [] ∧ i < m then x.getD j 0 else 0) = x.getD j 0 := by
          rw [if_pos ⟨hmem, hi⟩]
        rw [← this]
        exact List.mem_map_of_mem _ (List.mem_range.mpr hj)
      rw [hfeas i hi] at hterm
      have := getD_le_sum (t := targets) (i := i)
      omega

/-- The modelled exact solver is a lower bound on every feasible press total,
and it is non-negative as soon as the program is feasible at all. -/
theorem solve_part2_le {buttons : List (List Nat)} {targets : List Nat} {x : List Nat}
    (hx : FeasibleILP buttons targets x) :
    solve_machine_part2 buttons targets ≤ (x.sum : Int) ∧
      0 ≤ solve_machine_part2 buttons targets := by
  rcases feasible_dominated hx with ⟨x2, hx2, hle, hmem⟩
  have hmemf : x2 ∈ (allVecs buttons.length (targets.sum + 1)).filter
      fun y => decide (FeasibleILP buttons targets y) := by
    rw [List.mem_filter]
    exact ⟨hmem, by simpa using hx2⟩
  have hne : ((allVecs buttons.length (targets.sum + 1)).filter
      fun y => decide (FeasibleILP buttons targets y)).isEmpty = false := by
    rcases h : (allVecs buttons.length (targets.sum + 1)).filter
        fun y => decide (FeasibleILP buttons targets y) with _ | _
    · rw [h] at hmemf
      cases hmemf
    · rfl
  have hnn : (allVecs buttons.length (targets.sum + 1)).filter
      (fun y => decide (FeasibleILP buttons targets y)) ≠ [] := by
    intro h
    rw [h] at hmemf
    cases hmemf
  rcases listMin0_spec (l := ((allVecs buttons.length (targets.sum + 1)).filter
      fun y => decide (FeasibleILP buttons targets y)).map fun y => y.sum)
      (by
        intro h
        exact hnn (List.map_eq_nil_iff.mp h)) with ⟨_, hlb⟩
  have hminle : listMin0 (((allVecs buttons.length (targets.sum + 1)).filter
      fun y => decide (FeasibleILP buttons targets y)).map fun y => y.sum) ≤ x2.sum :=
    hlb _ (List.mem_map_of_mem _ hmemf)
  constructor
  · show (if _ then _ else _) ≤ _
    rw [if_neg (by rw [hne]; exact Bool.false_ne_true ∘ id)]
    have : listMin0 (((allVecs buttons.length (targets.sum + 1)).filter
        fun y => decide (FeasibleILP buttons targets y)).map fun y => y.sum) ≤ x.sum := by
      omega
    exact_mod_cast this
  · show (0 : Int) ≤ (if _ then _ else _)
    rw [if_neg (by rw [hne]; exact Bool.false_ne_true ∘ id)]
    exact Int.natCast_nonneg _

theorem countOcc_nodup {b : List Nat} (hnd : b.Nodup) (i : Nat) :
    countOcc i b = if i ∈ b then 1 else 0 := by
  induction b with
  | nil => simp [countOcc]
  | cons a l ih =>
    rw [countOcc, ih (List.nodup_cons.mp hnd).2]
    by_cases hai : a = i
    · subst hai
      rw [if_neg (List.nodup_cons.mp hnd).1, if_pos rfl, if_pos (List.mem_cons_self _ _)]
    · by_cases hmem : i ∈ l
      · rw [if_pos hmem, if_neg hai, if_pos (List.mem_cons_of_mem _ hmem)]
      · have hnc : i ∉ a :: l := by
          intro h
          rcases List.mem_cons.mp h with h1 | h1
          · exact hai h1.symm
          · exact hmem h1
        rw [if_neg hmem, if_neg hai, if_neg hnc]

theorem pressButton_getD {targets : List Nat} : ∀ (b s ns : List Nat),
    pressButton targets s b = Except.ok (some ns) →
    ∀ i, ns.getD i 0 = s.getD i 0 + countOcc i b := by
  intro b
  induction b with
  | nil =>
    intro s ns hp i
    cases hp
    simp [countOcc]
  | cons idx rest ih =>
    intro s ns hp i
    rw [pressButton] at hp
    rcases Nat.lt_or_ge idx s.length with hidx | hidx
    · rw [dif_pos hidx] at hp
      rcases Nat.lt_or_ge (targets.getD idx 0)
          ((s.set idx (s.get ⟨idx, hidx⟩ + 1)).getD idx 0) with hgt | hle2
      · rw [if_pos hgt] at hp
        cases hp
      · rw [if_neg (by omega)] at hp
        have hstep := ih _ ns hp i
        rw [countOcc]
        by_cases hii : i = idx
        · subst hii
          rw [hstep, getD_set_self hidx, if_pos rfl]
          have : s.get ⟨i, hidx⟩ = s.getD i 0 := by
            rw [List.getD_eq_getElem _ _ hidx]
            rfl
          omega
        · rw [hstep, getD_set_other (by omega), if_neg (by omega)]
          omega
    · rw [dif_neg (by omega)] at hp
      cases hp

theorem runSeq_getD {targets : List Nat} {buttons : List (List Nat)} :
    ∀ (seq : List Nat) (s s2 : List Nat),
      runSeq targets buttons s seq = some s2 →
      ∀ i, s2.getD i 0 = s.getD i 0 + contribSeq buttons seq i := by
  intro seq
  induction seq with
  | nil =>
    intro s s2 hrun i
    cases hrun
    simp [contribSeq]
  | cons j rest ih =>
    intro s s2 hrun i
    rw [runSeq] at hrun
    by_cases hj : j < buttons.length
    · rw [if_pos hj] at hrun
      rcases hpress : pressButton targets s (buttons.getD j []) with u | r
      · rw [hpress] at hrun; cases hrun
      · rcases r with _ | ns
        · rw [hpress] at hrun; cases hrun
        · rw [hpress] at hrun
          have h1 := pressButton_getD _ s ns hpress i
          have h2 := ih ns s2 hrun i
          rw [contribSeq]
          omega
    · rw [if_neg hj] at hrun; cases hrun

theorem runSeq_indices_lt {targets : List Nat} {buttons : List (List Nat)} :
    ∀ (seq : List Nat) (s s2 : List Nat),
      runSeq targets buttons s seq = some s2 →
      ∀ j ∈ seq, j < buttons.length := by
  intro seq
  induction seq with
  | nil => intro s s2 _ j hj; cases hj
  | cons j0 rest ih =>
    intro s s2 hrun j hj
    rw [runSeq] at hrun
    by_cases hj0 : j0 < buttons.length
    · rw [if_pos hj0] at hrun
      rcases hpress : pressButton targets s (buttons.getD j0 []) with u | r
      · rw [hpress] at hrun; cases hrun
      · rcases r with _ | ns
        · rw [hpress] at hrun; cases hrun
        · rw [hpress] at hrun
          rcases List.mem_cons.mp hj with h | h
          · subst h; exact hj0
          · exact ih ns s2 hrun j h
    · rw [if_neg hj0] at hrun; cases hrun

theorem contribSeq_eq_dotCount {m : Nat} {buttons : List (List Nat)}
    (hnodup : ∀ b ∈ buttons, b.Nodup) :
    ∀ (seq : List Nat), (∀ j ∈ seq, j < buttons.length) →
      ∀ i, i < m →
        contribSeq buttons seq i =
          dotCount m buttons ((List.range buttons.length).map fun k => countOcc k seq) i := by
  intro seq
  induction seq with
  | nil =>
    intro _ i _
    rw [contribSeq, dotCount]
    rw [sum_map_zero]
    intro k hk
    rw [List.mem_range] at hk
    by_cases hc : i ∈ buttons.getD k [] ∧ i < m
    · rw [if_pos hc, map_range_getD2 _ hk]
      rfl
    · rw [if_neg hc]
  | cons j rest ih =>
    intro hlt i hi
    have hj : j < buttons.length := hlt j (List.mem_cons_self _ _)
    rw [contribSeq, ih (fun k hk => hlt k (List.mem_cons_of_mem _ hk)) i hi]
    have hcnt : countOcc i (buttons.getD j []) =
        if i ∈ buttons.getD j [] ∧ i < m then 1 else 0 := by
      rw [countOcc_nodup (hnodup _ (getD_mem_of_lt hj)) i]
      by_cases hmem : i ∈ buttons.getD j []
      · rw [if_pos hmem, if_pos ⟨hmem, hi⟩]
      · rw [if_neg hmem, if_neg (by intro hc; exact hmem hc.1)]
    have hpw : ∀ k ∈ List.range buttons.length,
        (if i ∈ buttons.getD k [] ∧ i < m
         then ((List.range buttons.length).map fun k2 => countOcc k2 (j :: rest)).getD k 0
         else 0) =
        (if i ∈ buttons.getD k [] ∧ i < m
         then ((List.range buttons.length).map fun k2 => countOcc k2 rest).getD k 0 else 0) +
        (if k = j then (if i ∈ buttons.getD j [] ∧ i < m then 1 else 0) else 0) := by
      intro k hk
      rw [List.mem_range] at hk
      by_cases hc : i ∈ buttons.getD k [] ∧ i < m
      · rw [if_pos hc, if_pos hc, map_range_getD2 _ hk, map_range_getD2 _ hk]
        show countOcc k (j :: rest) = countOcc k rest + _
        rw [countOcc]
        by_cases hkj : k = j
        · subst hkj
          rw [if_pos rfl, if_pos rfl, if_pos hc]
        · rw [if_neg (fun h => hkj h.symm), if_neg hkj]
      · rw [if_neg hc, if_neg hc]
        by_cases hkj : k = j
        · subst hkj
          rw [if_pos rfl, if_neg hc]
        · rw [if_neg hkj]
    have hsplit : dotCount m buttons
        ((List.range buttons.length).map fun k => countOcc k (j :: rest)) i =
        dotCount m buttons ((List.range buttons.length).map fun k => countOcc k rest) i +
          (if i ∈ buttons.getD j [] ∧ i < m then 1 else 0) := by
      show ((List.range buttons.length).map fun k =>
          if i ∈ buttons.getD k [] ∧ i < m
          then ((List.range buttons.length).map fun k2 => countOcc k2 (j :: rest)).getD k 0
          else 0).sum = _
      rw [sum_map_add_pointwise hpw, sum_spike hj]
      rfl
    rw [hsplit, hcnt]
    omega

theorem countOcc_total {n : Nat} :
    ∀ (seq : List Nat), (∀ j ∈ seq, j < n) →
      ((List.range n).map fun k => countOcc k seq).sum = seq.length := by
  intro seq
  induction seq with
  | nil =>
    intro _
    rw [List.length_nil, sum_map_zero]
    intro k _
    rfl
  | cons j rest ih =>
    intro hlt
    have hj : j < n := hlt j (List.mem_cons_self _ _)
    rw [sum_map_add_pointwise (f := fun k => countOcc k rest)
      (g := fun k => if k = j then 1 else 0)]
    · rw [ih fun k hk => hlt k (List.mem_cons_of_mem _ hk), sum_spike hj]
      simp
    · intro k _
      show countOcc k (j :: rest) = countOcc k rest + _
      rw [countOcc]
      by_cases hkj : k = j
      · simp [hkj]
      · rw [if_neg (fun h => hkj h.symm), if_neg hkj]

/-- A press sequence that reaches the targets yields a feasible point of the
integer program whose cost is the sequence length. -/
theorem reached_to_feasible {targets : List Nat} {buttons : List (List Nat)} {g : Nat}
    (hnodup : ∀ b ∈ buttons, b.Nodup)
    (hreach : ReachedBy targets buttons targets g) :
    ∃ x, FeasibleILP buttons targets x ∧ x.sum = g := by
  rcases hreach with ⟨seq, hlen, hrun⟩
  have hlt := runSeq_indices_lt seq _ _ hrun
  refine ⟨(List.range buttons.length).map fun k => countOcc k seq, ⟨by simp, ?_⟩, ?_⟩
  · intro i hi
    have h1 := runSeq_getD seq _ _ hrun i
    have hstart : (List.replicate targets.length 0).getD i 0 = 0 := by
      by_cases hil : i < targets.length
      · rw [List.getD_eq_getElem _ _ (by simpa using hil)]
        simp
      · rw [List.getD_eq_default _ _ (by simpa using hil)]
    rw [← contribSeq_eq_dotCount hnodup seq hlt i hi]
    omega
  · rw [countOcc_total seq hlt]
    exact hlen

/-- The exact backend never exceeds a count realized by any press sequence. -/
theorem exact_le_reached {targets : List Nat} {buttons : List (List Nat)} {g : Nat}
    (hnodup : ∀ b ∈ buttons, b.Nodup)
    (hreach : ReachedBy targets buttons targets g) :
    solve_machine_part2 buttons targets ≤ (g : Int) ∧
      0 ≤ solve_machine_part2 buttons targets := by
  rcases reached_to_feasible hnodup hreach with ⟨x, hx, hsum⟩
  have := solve_part2_le hx
  rw [hsum] at this
  exact this

/-! ### Shared facts for the claim theorems -/

theorem boundedState_replicate_zero (targets : List Nat) :
    BoundedState (List.replicate targets.length 0) targets := by
  intro i
  by_cases hi : i < targets.length
  · rw [List.getD_eq_getElem _ _ (by simpa using hi)]
    simp
  · rw [List.getD_eq_default _ _ (by simpa using hi)]
    exact Nat.zero_le _

/-- The exact backend never consults a slot index at or beyond the target
length: `dotCount` is unchanged by dropping such indices from every button. -/
theorem dotCount_filter (m : Nat) (buttons : List (List Nat)) (x : List Nat) (i : Nat) :
    dotCount m (buttons.map fun b => b.filter fun v => decide (v < m)) x i =
      dotCount m buttons x i := by
  unfold dotCount
  rw [List.length_map]
  refine congrArg List.sum (List.map_congr_left ?_)
  intro j hj
  rw [List.mem_range] at hj
  have hget : (buttons.map fun b => b.filter fun v => decide (v < m)).getD j [] =
      (buttons.getD j []).filter fun v => decide (v < m) := by
    rw [List.getD_eq_getElem _ _ (by simpa using hj), List.getD_eq_getElem _ _ hj]
    simp
  have hiff : (i ∈ (buttons.getD j []).filter (fun v => decide (v < m)) ∧ i < m) ↔
      (i ∈ buttons.getD j [] ∧ i < m) := by
    constructor
    · rintro ⟨h1, h2⟩
      exact ⟨(List.mem_filter.mp h1).1, h2⟩
    · rintro ⟨h1, h2⟩
      exact ⟨List.mem_filter.mpr ⟨h1, by simpa using h2⟩, h2⟩
  rw [hget, if_congr hiff rfl rfl]

theorem feasibleILP_filter_iff (buttons : List (List Nat)) (targets : List Nat)
    (x : List Nat) :
    FeasibleILP (buttons.map fun b => b.filter fun v => decide (v < targets.length))
        targets x ↔ FeasibleILP buttons targets x := by
  unfold FeasibleILP
  rw [List.length_map]
  simp only [dotCount_filter]

/-- With no buttons at all, a non-zero target vector is unreachable. -/
theorem no_buttons_unreachable : ¬ ∃ g : Nat, ReachedBy [1] [] [1] g := by
  rintro ⟨g, seq, hlen, hrun⟩
  cases seq with
  | nil => exact absurd hrun (by decide)
  | cons j rest =>
    rw [runSeq, if_neg (by simp)] at hrun
    cases hrun

/-! ### Termination of the search loop: the frontier exhausts on infeasible
machines

Each loop iteration pops one entry, and every entry it pushes is paid for by
a strict decrease of a visited value; over the finite bounded state space the
total potential strictly decreases, so with fuel above the initial potential
the loop runs to its own return, and when the targets are unreachable that
return is the `-1` sentinel. -/

theorem sum_map_const {α : Type} (l : List α) (c : Nat) :
    (l.map fun _ => c).sum = l.length * c := by
  induction l with
  | nil => simp
  | cons a t ih =>
    rw [List.map_cons, List.sum_cons, ih, List.length_cons, Nat.succ_mul]
    omega

theorem sum_map_lt_at {α : Type} {l : List α} {f g : α → Nat} {a : α}
    (hnd : l.Nodup) (ha : a ∈ l) (hpt : ∀ x ∈ l, x ≠ a → f x = g x)
    (hfa : f a < g a) : (l.map f).sum < (l.map g).sum := by
  induction l with
  | nil => cases ha
  | cons b t ih =>
    rw [List.map_cons, List.map_cons, List.sum_cons, List.sum_cons]
    rcases List.mem_cons.mp ha with rfl | hat
    · have htail : (t.map f).sum = (t.map g).sum := by
        refine congrArg List.sum (List.map_congr_left ?_)
        intro x hx
        exact hpt x (List.mem_cons_of_mem _ hx)
          (fun he => (List.nodup_cons.mp hnd).1 (he ▸ hx))
      omega
    · have hhead : f b = g b :=
        hpt b (List.mem_cons_self _ _)
          (fun he => (List.nodup_cons.mp hnd).1 (he ▸ hat))
      have := ih (List.nodup_cons.mp hnd).2 hat
        (fun x hx hxa => hpt x (List.mem_cons_of_mem _ hx) hxa)
      omega

theorem mem_allStates : ∀ (ts : List Nat) (s : List Nat), s.length = ts.length →
    BoundedState s ts → s ∈ allStates ts := by
  intro ts
  induction ts with
  | nil =>
    intro s hlen _
    rw [List.length_eq_zero.mp hlen]
    simp [allStates]
  | cons t ts ih =>
    intro s hlen hbd
    cases s with
    | nil => exact absurd hlen (by simp)
    | cons a as =>
      rw [allStates]
      refine List.mem_flatMap.mpr ⟨a, List.mem_range.mpr ?_, List.mem_map.mpr ⟨as, ih as ?_ ?_, rfl⟩⟩
      · have : a ≤ t := by
          have := hbd 0
          simpa using this
        omega
      · simpa using hlen
      · intro i
        have := hbd (i + 1)
        simpa using this

theorem allStates_nodup : ∀ ts : List Nat, (allStates ts).Nodup := by
  intro ts
  induction ts with
  | nil => simp [allStates]
  | cons t ts ih =>
    rw [allStates, List.nodup_flatMap]
    constructor
    · intro v _
      exact ih.map fun s1 s2 h => by injection h
    · refine List.Pairwise.imp ?_ (List.nodup_range (t + 1))
      intro a b hab x hx1 hx2
      rcases List.mem_map.mp hx1 with ⟨s1, _, h1⟩
      rcases List.mem_map.mp hx2 with ⟨s2, _, h2⟩
      apply hab
      have he : a :: s1 = b :: s2 := by rw [h1, h2]
      injection he

theorem lookupV_cons_self (ns : List Nat) (np : Nat) (visited : List (List Nat × Nat)) :
    lookupV ns ((ns, np) :: visited) = some np := by
  simp [lookupV, List.lookup]

theorem lookupV_cons_ne {s ns : List Nat} (h : s ≠ ns) (np : Nat)
    (visited : List (List Nat × Nat)) :
    lookupV s ((ns, np) :: visited) = lookupV s visited := by
  have hb : (s == ns) = false := beq_eq_false_iff_ne.mpr h
  simp [lookupV, List.lookup, hb]

theorem visPot_push_lt {S : Nat} {targets : List Nat} {visited : List (List Nat × Nat)}
    {ns : List Nat} {np : Nat} (hmem : ns ∈ allStates targets)
    (hlt : np < statePot S visited ns) :
    visPot S targets ((ns, np) :: visited) < visPot S targets visited := by
  unfold visPot
  refine sum_map_lt_at (allStates_nodup targets) hmem ?_ ?_
  · intro x _ hne
    unfold statePot
    rw [lookupV_cons_ne hne]
  · unfold statePot
    rw [lookupV_cons_self]
    exact hlt

theorem sum_lt_of_bounded_ne : ∀ (s t : List Nat), s.length = t.length →
    BoundedState s t → s ≠ t → s.sum < t.sum := by
  intro s
  induction s with
  | nil =>
    intro t hlen _ hne
    have ht : t = [] := by
      cases t with
      | nil => rfl
      | cons a as => exact absurd hlen (by simp)
    exact absurd ht.symm hne
  | cons a as ih =>
    intro t hlen hb hne
    cases t with
    | nil => exact absurd hlen (by simp)
    | cons b bs =>
      have hab : a ≤ b := by
        have := hb 0
        simpa using this
      have htail : BoundedState as bs := by
        intro i
        have := hb (i + 1)
        simpa using this
      have hlen2 : as.length = bs.length := by simpa using hlen
      rw [List.sum_cons, List.sum_cons]
      by_cases habe : a = b
      · subst habe
        have hne2 : as ≠ bs := fun h => hne (by rw [h])
        have := ih bs hlen2 htail hne2
        omega
      · have := sum_le_of_bounded hlen2 htail
        omega

theorem pressButton_no_error (targets : List Nat) : ∀ (b s : List Nat),
    (∀ i ∈ b, i < s.length) → ∃ r, pressButton targets s b = Except.ok r := by
  intro b
  induction b with
  | nil => intro s _; exact ⟨some s, rfl⟩
  | cons idx rest ih =>
    intro s hrange
    have hidx : idx < s.length := hrange idx (List.mem_cons_self _ _)
    rcases Nat.lt_or_ge (targets.getD idx 0)
        ((s.set idx (s.get ⟨idx, hidx⟩ + 1)).getD idx 0) with hgt | hle
    · refine ⟨none, ?_⟩
      rw [pressButton, dif_pos hidx, if_pos hgt]
    · have hrest : ∀ i ∈ rest, i < (s.set idx (s.get ⟨idx, hidx⟩ + 1)).length := by
        intro i hi
        rw [List.length_set]
        exact hrange i (List.mem_cons_of_mem _ hi)
      rcases ih _ hrest with ⟨r, hr⟩
      refine ⟨r, ?_⟩
      rw [pressButton, dif_pos hidx, if_neg (by omega)]
      exact hr

theorem expand_no_error (targets : List Nat) (presses : Nat) (state : List Nat) :
    ∀ (bl : List (List Nat)) (heap : List (Nat × Nat × List Nat))
      (visited : List (List Nat × Nat)),
      (∀ b ∈ bl, ∀ i ∈ b, i < state.length) →
      ∃ pr, expand targets presses state bl heap visited = Except.ok pr := by
  intro bl
  induction bl with
  | nil => intro heap visited _; exact ⟨(heap, visited), rfl⟩
  | cons button rest ih =>
    intro heap visited hrange
    have hrest : ∀ b ∈ rest, ∀ i ∈ b, i < state.length :=
      fun b hb => hrange b (List.mem_cons_of_mem _ hb)
    rcases pressButton_no_error targets button state (hrange button (List.mem_cons_self _ _))
      with ⟨r, hpress⟩
    rcases r with _ | ns
    · rcases ih heap visited hrest with ⟨pr, h⟩
      exact ⟨pr, by simp only [expand, hpress]; exact h⟩
    · rcases hlook : lookupV ns visited with _ | g
      · rcases ih (heap ++ [(presses + 1 + heuristic ns targets, presses + 1, ns)])
          ((ns, presses + 1) :: visited) hrest with ⟨pr, h⟩
        exact ⟨pr, by simp only [expand, hpress, hlook]; exact h⟩
      · by_cases hcmp : g > presses + 1
        · rcases ih (heap ++ [(presses + 1 + heuristic ns targets, presses + 1, ns)])
            ((ns, presses + 1) :: visited) hrest with ⟨pr, h⟩
          refine ⟨pr, ?_⟩
          simp only [expand, hpress, hlook]
          rw [if_pos hcmp]
          exact h
        · rcases ih heap visited hrest with ⟨pr, h⟩
          refine ⟨pr, ?_⟩
          simp only [expand, hpress, hlook]
          rw [if_neg hcmp]
          exact h

theorem expand_phi {targets : List Nat} {presses : Nat} {state : List Nat} :
    ∀ (bl : List (List Nat)) (heap : List (Nat × Nat × List Nat))
      (visited : List (List Nat × Nat)),
      (∀ b ∈ bl, b ≠ []) →
      BoundedState state targets →
      state.length = targets.length →
      presses ≤ state.sum →
      state.sum < targets.sum →
      (∀ e ∈ heap, BoundedState e.2.2 targets) →
      (∀ e ∈ heap, e.2.2.length = targets.length) →
      (∀ e ∈ heap, e.2.1 ≤ e.2.2.sum) →
      ∀ {h2 : List (Nat × Nat × List Nat)} {v2 : List (List Nat × Nat)},
        expand targets presses state bl heap visited = Except.ok (h2, v2) →
        ((∀ e ∈ h2, BoundedState e.2.2 targets) ∧
          (∀ e ∈ h2, e.2.2.length = targets.length) ∧
          (∀ e ∈ h2, e.2.1 ≤ e.2.2.sum)) ∧
        h2.length + visPot targets.sum targets v2 ≤
          heap.length + visPot targets.sum targets visited := by
  intro bl
  induction bl with
  | nil =>
    intro heap visited _ _ _ _ _ hb hl hg h2 v2 hexp
    cases hexp
    exact ⟨⟨hb, hl, hg⟩, le_refl _⟩
  | cons button rest ih =>
    intro heap visited hne hsb hsl hsg hslt hb hl hg h2 v2 hexp
    have hnerest : ∀ b ∈ rest, b ≠ [] := fun b hb2 => hne b (List.mem_cons_of_mem _ hb2)
    rcases hpress : pressButton targets state button with u | r
    · simp only [expand, hpress] at hexp
      cases hexp
    · rcases r with _ | ns
      · simp only [expand, hpress] at hexp
        exact ih heap visited hnerest hsb hsl hsg hslt hb hl hg hexp
      · have hnsb : BoundedState ns targets := pressButton_bounded button state ns hsb hpress
        have hnsl : ns.length = targets.length := by
          rw [pressButton_length button state ns hpress]
          exact hsl
        have hnssum : ns.sum = state.sum + button.length :=
          pressButton_sum button state ns hpress
        have hnebtn : button ≠ [] := hne button (List.mem_cons_self _ _)
        have hbl1 : 1 ≤ button.length := by
          cases button with
          | nil => exact absurd rfl hnebtn
          | cons x xs => simp
        have hmem : ns ∈ allStates targets := mem_allStates targets ns hnsl hnsb
        have hb2 : ∀ e ∈ heap ++ [(presses + 1 + heuristic ns targets, presses + 1, ns)],
            BoundedState e.2.2 targets := by
          intro e he
          rcases List.mem_append.mp he with h | h
          · exact hb e h
          · simp at h
            rw [h]
            exact hnsb
        have hl2 : ∀ e ∈ heap ++ [(presses + 1 + heuristic ns targets, presses + 1, ns)],
            e.2.2.length = targets.length := by
          intro e he
          rcases List.mem_append.mp he with h | h
          · exact hl e h
          · simp at h
            rw [h]
            exact hnsl
        have hg2 : ∀ e ∈ heap ++ [(presses + 1 + heuristic ns targets, presses + 1, ns)],
            e.2.1 ≤ e.2.2.sum := by
          intro e he
          rcases List.mem_append.mp he with h | h
          · exact hg e h
          · simp at h
            rw [h]
            show presses + 1 ≤ ns.sum
            omega
        have happlen :
            (heap ++ [(presses + 1 + heuristic ns targets, presses + 1, ns)]).length =
              heap.length + 1 := by
          simp
        rcases hlook : lookupV ns visited with _ | g
        · simp only [expand, hpress, hlook] at hexp
          have hpot : visPot targets.sum targets ((ns, presses + 1) :: visited) <
              visPot targets.sum targets visited := by
            refine visPot_push_lt hmem ?_
            unfold statePot
            rw [hlook]
            show presses + 1 < targets.sum + 1
            omega
          have hrec := ih _ _ hnerest hsb hsl hsg hslt hb2 hl2 hg2 hexp
          refine ⟨hrec.1, ?_⟩
          have h22 := hrec.2
          rw [happlen] at h22
          omega
        · simp only [expand, hpress, hlook] at hexp
          by_cases hcmp : g > presses + 1
          · rw [if_pos hcmp] at hexp
            have hpot : visPot targets.sum targets ((ns, presses + 1) :: visited) <
                visPot targets.sum targets visited := by
              refine visPot_push_lt hmem ?_
              unfold statePot
              rw [hlook]
              show presses + 1 < g
              omega
            have hrec := ih _ _ hnerest hsb hsl hsg hslt hb2 hl2 hg2 hexp
            refine ⟨hrec.1, ?_⟩
            have h22 := hrec.2
            rw [happlen] at h22
            omega
          · rw [if_neg hcmp] at hexp
            exact ih heap visited hnerest hsb hsl hsg hslt hb hl hg hexp

theorem popMin_length {heap : List (Nat × Nat × List Nat)} {e : Nat × Nat × List Nat}
    {h2 : List (Nat × Nat × List Nat)} (h : popMin heap = some (e, h2)) :
    h2.length + 1 = heap.length := by
  match heap, h with
  | f :: rest, h =>
    have hpair : e = minEntry f rest ∧
        h2 = (f :: rest).eraseP (fun x => x == minEntry f rest) := by
      rw [popMin] at h
      exact ⟨(Prod.mk.injEq _ _ _ _ ▸ Option.some.inj h).1.symm,
        (Prod.mk.injEq _ _ _ _ ▸ Option.some.inj h).2.symm⟩
    rw [hpair.2]
    have hm : minEntry f rest ∈ f :: rest := minEntry_mem rest f
    rw [List.length_eraseP_of_mem hm (by simp)]
    simp

theorem astarLoop_exhaust {targets : List Nat} {buttons : List (List Nat)}
    (hrange : ∀ b ∈ buttons, ∀ ci ∈ b, ci < targets.length)
    (hne : ∀ b ∈ buttons, b ≠ [])
    (hinf : ¬ ∃ g : Nat, ReachedBy targets buttons targets g) :
    ∀ (fuel : Nat) (heap : List (Nat × Nat × List Nat)) (visited : List (List Nat × Nat)),
      (∀ e ∈ heap, BoundedState e.2.2 targets) →
      (∀ e ∈ heap, e.2.2.length = targets.length) →
      (∀ e ∈ heap, e.2.1 ≤ e.2.2.sum) →
      (∀ e ∈ heap, ReachedBy targets buttons e.2.2 e.2.1) →
      heap.length + visPot targets.sum targets visited < fuel →
      astarLoop targets buttons fuel heap visited = some (Except.ok (-1)) := by
  intro fuel
  induction fuel with
  | zero =>
    intro heap visited _ _ _ _ hphi
    omega
  | succ k ih =>
    intro heap visited hb hl hg hr hphi
    rcases hpop : popMin heap with _ | epair
    · simp only [astarLoop, astarStep, hpop]
    · rcases epair with ⟨⟨est, presses, state⟩, heap2⟩
      have hmem := popMin_mem hpop
      have hlen2 := popMin_length hpop
      have hsub := popMin_rest_subset hpop
      simp only [astarLoop, astarStep, hpop]
      by_cases hgoal : state = targets
      · exfalso
        exact hinf ⟨presses, hgoal ▸ hr _ hmem⟩
      · rw [if_neg hgoal]
        rcases hstale : staleB state visited presses with _ | _
        · rw [if_neg (by simp)]
          have hstateb := hb _ hmem
          have hstatel := hl _ hmem
          have hstateg := hg _ hmem
          have hstater := hr _ hmem
          have hslt : state.sum < targets.sum :=
            sum_lt_of_bounded_ne state targets hstatel hstateb hgoal
          have hrange2 : ∀ b2 ∈ buttons, ∀ i ∈ b2, i < state.length := by
            intro b2 hb2 i hi
            rw [hstatel]
            exact hrange b2 hb2 i hi
          rcases expand_no_error targets presses state buttons heap2 visited hrange2
            with ⟨⟨hh, vv⟩, hexp⟩
          simp only [hexp]
          rcases expand_phi buttons heap2 visited hne hstateb hstatel hstateg hslt
            (fun e he => hb e (hsub e he)) (fun e he => hl e (hsub e he))
            (fun e he => hg e (hsub e he)) hexp with ⟨⟨hbI, hlI, hgI⟩, hphiI⟩
          have hrI : ∀ e ∈ hh, ReachedBy targets buttons e.2.2 e.2.1 :=
            expand_sound buttons 0 heap2 visited (by simp) hstater
              (fun e he => hr e (hsub e he)) hexp
          apply ih hh vv hbI hlI hgI hrI
          omega
        · rw [if_pos rfl]
          apply ih heap2 visited (fun e he => hb e (hsub e he))
            (fun e he => hl e (hsub e he)) (fun e he => hg e (hsub e he))
            (fun e he => hr e (hsub e he))
          omega

theorem visPot_init_le (targets start : List Nat) :
    visPot targets.sum targets [(start, 0)] ≤
      (targets.sum + 1) * (allStates targets).length := by
  unfold visPot
  have h1 : ((allStates targets).map (statePot targets.sum [(start, 0)])).sum ≤
      ((allStates targets).map fun _ => targets.sum + 1).sum := by
    apply sum_map_le_pointwise
    intro s _
    unfold statePot
    by_cases hs : s = start
    · subst hs
      rw [lookupV_cons_self]
      show 0 ≤ targets.sum + 1
      omega
    · rw [lookupV_cons_ne hs]
      show (lookupV s []).getD (targets.sum + 1) ≤ targets.sum + 1
      exact le_refl _
  rw [sum_map_const] at h1
  rw [Nat.mul_comm]
  exact h1

/-- On an unreachable target vector, the search exhausts its frontier and
returns the `-1` sentinel, for any fuel at or above its budget. -/
theorem astar_infeasible_exhausts {targets : List Nat} {buttons : List (List Nat)}
    (hrange : ∀ b ∈ buttons, ∀ ci ∈ b, ci < targets.length)
    (hne : ∀ b ∈ buttons, b ≠ [])
    (hinf : ¬ ∃ g : Nat, ReachedBy targets buttons targets g) :
    ∀ fuel : Nat, astarFuel targets ≤ fuel →
      astar_min_presses fuel targets buttons targets.length = some (Except.ok (-1)) := by
  intro fuel hfuel
  rw [astar_min_presses]
  by_cases hst : List.replicate targets.length 0 = targets
  · exact absurd ⟨0, [], rfl, by rw [hst]; rfl⟩ hinf
  · rw [if_neg hst]
    apply astarLoop_exhaust hrange hne hinf
    · intro e he
      simp at he
      rw [he]
      exact boundedState_replicate_zero targets
    · intro e he
      simp at he
      rw [he]
      simp
    · intro e he
      simp at he
      rw [he]
      exact Nat.zero_le _
    · intro e he
      simp at he
      rw [he]
      exact ⟨[], rfl, rfl⟩
    · have h1 := visPot_init_le targets (List.replicate targets.length 0)
      rw [astarFuel] at hfuel
      show 1 + visPot targets.sum targets [(List.replicate targets.length 0, 0)] < fuel
      omega

/-! ### The ten claims -/

/-- C1: for a machine whose GF(2) toggle system is consistent,
`solve_machine_part1` returns the minimum cardinality over all subsets of
buttons whose XORed toggle patterns reproduce the binary target: some
solving 0/1 vector attains the returned weight, and no solving vector has a
smaller weight. -/
theorem claim_C1 (buttons : List (List Nat)) (target : List Bool)
    (hcons : ∃ x : List Bool, x.length = buttons.length ∧ SolvesL buttons target x) :
    (∃ x : List Bool, x.length = buttons.length ∧ SolvesL buttons target x ∧
      pressWeight x = solve_machine_part1 buttons target) ∧
    (∀ x : List Bool, x.length = buttons.length → SolvesL buttons target x →
      solve_machine_part1 buttons target ≤ pressWeight x) :=
  solve_part1_list_spec hcons

/-- Witness for C1 on the machine with buttons `(0) (1) (0,1)` and
target `[##]`. -/
theorem claim_C1_witness :
    (∃ x : List Bool, x.length = 3 ∧ SolvesL [[0], [1], [0, 1]] [true, true] x) ∧
    ((∃ x : List Bool, x.length = 3 ∧ SolvesL [[0], [1], [0, 1]] [true, true] x ∧
        pressWeight x = solve_machine_part1 [[0], [1], [0, 1]] [true, true]) ∧
      (∀ x : List Bool, x.length = 3 → SolvesL [[0], [1], [0, 1]] [true, true] x →
        solve_machine_part1 [[0], [1], [0, 1]] [true, true] ≤ pressWeight x)) :=
  ⟨⟨[true, true, false], rfl, by decide⟩,
    claim_C1 [[0], [1], [0, 1]] [true, true] ⟨[true, true, false], rfl, by decide⟩⟩

/-- C2 (corrected): when `astar_min_presses` returns a non-negative press
count, that count is realized by a legal press sequence reaching the targets
(the original claim of minimality fails, see the counterexample); and when no
press multiset reaches the targets (with in-range, non-empty buttons), the
frontier is exhausted and the `-1` sentinel is returned, for any fuel at or
above the budget `astarFuel`. -/
theorem claim_C2 (targets : List Nat) (buttons : List (List Nat)) :
    (∀ (fuel : Nat) (p : Int),
      astar_min_presses fuel targets buttons targets.length = some (Except.ok p) →
      0 ≤ p → ReachedBy targets buttons targets p.toNat) ∧
    ((∀ b ∈ buttons, ∀ ci ∈ b, ci < targets.length) → (∀ b ∈ buttons, b ≠ []) →
      (¬ ∃ g : Nat, ReachedBy targets buttons targets g) →
      ∀ fuel : Nat, astarFuel targets ≤ fuel →
        astar_min_presses fuel targets buttons targets.length = some (Except.ok (-1))) :=
  ⟨fun _ _ h hp => astar_sound h hp,
    fun hrange hne hinf => astar_infeasible_exhausts hrange hne hinf⟩

/-- Witness for C2: the first clause on the one-counter machine with button
`(0)`, the second on the buttonless machine with target `{1}`. -/
theorem claim_C2_witness :
    (astar_min_presses 10 [1] [[0]] 1 = some (Except.ok 1) ∧ ((0 : Int) ≤ 1) ∧
      ReachedBy [1] [[0]] [1] 1) ∧
    ((∀ b ∈ ([] : List (List Nat)), ∀ ci ∈ b, ci < 1) ∧
      (∀ b ∈ ([] : List (List Nat)), b ≠ []) ∧
      (¬ ∃ g : Nat, ReachedBy [1] [] [1] g) ∧ astarFuel [1] ≤ 7 ∧
      astar_min_presses 7 [1] [] 1 = some (Except.ok (-1))) :=
  ⟨⟨rfl, by decide, (claim_C2 [1] [[0]]).1 10 1 rfl (by decide)⟩,
    ⟨by decide, by decide, no_buttons_unreachable, by decide,
      (claim_C2 [1] []).2 (by decide) (by decide) no_buttons_unreachable 7 (by decide)⟩⟩

/-- Counterexample to C2 as stated: on targets `[1,1,1,2]`-style machine
`{1,1,1,1,2}` with buttons `(0,1,2,3) (0,1,4) (2,3,4) (4)` the search returns
3 presses although 2 presses (buttons 1 then 2) already reach the targets, so
the returned count is not minimal. -/
theorem claim_C2_counterexample :
    astar_min_presses 20 [1, 1, 1, 1, 2] [[0, 1, 2, 3], [0, 1, 4], [2, 3, 4], [4]] 5 =
      some (Except.ok 3) ∧
    ReachedBy [1, 1, 1, 1, 2] [[0, 1, 2, 3], [0, 1, 4], [2, 3, 4], [4]] [1, 1, 1, 1, 2] 2 :=
  ⟨rfl, ⟨[1, 2], rfl, rfl⟩⟩

/-- C3 (corrected): the deficit-sum heuristic drops by the full button size
(not by at most 1) along every materialized press, and it is an
over-estimate of the true remaining cost: every legal press sequence from a
bounded state to the targets has length at most `heuristic`; it is therefore
not admissible, see the counterexample. -/
theorem claim_C3 (targets : List Nat) (buttons : List (List Nat))
    (hne : ∀ b ∈ buttons, b ≠ []) :
    (∀ (s ns b : List Nat), s.length = targets.length → BoundedState s targets →
      pressButton targets s b = Except.ok (some ns) →
      heuristic s targets = heuristic ns targets + b.length) ∧
    (∀ (seq s : List Nat), s.length = targets.length → BoundedState s targets →
      runSeq targets buttons s seq = some targets →
      seq.length ≤ heuristic s targets) := by
  constructor
  · intro s ns b hlen hb hpress
    exact heuristic_press_drop hlen hb hpress
  · intro seq s hlen hb hrun
    exact heuristic_ge_remaining hne seq s hlen hb hrun

/-- Witness for C3 on the machine with targets `{1,1}` and button `(0,1)`. -/
theorem claim_C3_witness :
    (∀ b ∈ [[0, 1]], b ≠ ([] : List Nat)) ∧
    ((∀ (s ns b : List Nat), s.length = 2 → BoundedState s [1, 1] →
        pressButton [1, 1] s b = Except.ok (some ns) →
        heuristic s [1, 1] = heuristic ns [1, 1] + b.length) ∧
      (∀ (seq s : List Nat), s.length = 2 → BoundedState s [1, 1] →
        runSeq [1, 1] [[0, 1]] s seq = some [1, 1] →
        seq.length ≤ heuristic s [1, 1])) :=
  ⟨by decide, claim_C3 [1, 1] [[0, 1]] (by decide)⟩

/-- Counterexample to C3 as stated: from the start state of targets `{1,1}`
with button `(0,1)`, one press reaches the targets, but the heuristic value is
2, exceeding the true remaining cost 1 — the heuristic is not admissible. -/
theorem claim_C3_counterexample :
    ReachedBy [1, 1] [[0, 1]] [1, 1] 1 ∧ ¬(heuristic [0, 0] [1, 1] ≤ 1) :=
  ⟨⟨[0], rfl, rfl⟩, by decide⟩

/-- C4 (corrected): the exact backend is a lower bound for both search
backends — whenever the A* search and the greedy solver return non-negative
counts, `solve_machine_part2` is at most each of them; the claimed equality
with the A* count and the claimed A*-below-greedy inequality both fail, see
the counterexample. -/
theorem claim_C4 (fuelA fuelG : Nat) (targets : List Nat) (buttons : List (List Nat))
    {p q : Int}
    (hnodup : ∀ b ∈ buttons, b.Nodup)
    (ha : astar_min_presses fuelA targets buttons targets.length = some (Except.ok p))
    (hp : 0 ≤ p)
    (hg : greedy_min_presses fuelG targets buttons targets.length = some (Except.ok q))
    (hq : 0 ≤ q) :
    solve_machine_part2 buttons targets ≤ p ∧ solve_machine_part2 buttons targets ≤ q := by
  have hra : ReachedBy targets buttons targets p.toNat := astar_sound ha hp
  have hrg : ReachedBy targets buttons targets q.toNat := by
    have hg2 : greedyLoop targets buttons fuelG (List.replicate targets.length 0) 0 =
        some (Except.ok q) := hg
    exact greedyLoop_sound hnodup fuelG _ 0 q hg2 hq ⟨[], rfl, rfl⟩
  have h1 := (exact_le_reached hnodup hra).1
  have h2 := (exact_le_reached hnodup hrg).1
  rw [Int.toNat_of_nonneg hp] at h1
  rw [Int.toNat_of_nonneg hq] at h2
  exact ⟨h1, h2⟩

/-- Witness for C4 on the one-counter machine with button `(0)`. -/
theorem claim_C4_witness :
    (∀ b ∈ [[0]], List.Nodup b) ∧
    astar_min_presses 10 [1] [[0]] 1 = some (Except.ok 1) ∧ ((0 : Int) ≤ 1) ∧
    greedy_min_presses 10 [1] [[0]] 1 = some (Except.ok 1) ∧
    (solve_machine_part2 [[0]] [1] ≤ 1 ∧ solve_machine_part2 [[0]] [1] ≤ 1) :=
  ⟨by decide, rfl, by decide, rfl, claim_C4 10 10 [1] [[0]] (by decide) rfl (by decide) rfl (by decide)⟩

set_option maxRecDepth 4000 in
/-- Counterexample to C4 as stated: on targets `{3,1,2}` with buttons
`(0) (0,1) (0,2) (1,2)` the A* search returns 4 presses while the greedy
solver returns 3 and the exact backend is at most 3, so the search is
neither equal to the exact backend nor below the greedy one. -/
theorem claim_C4_counterexample :
    astar_min_presses 30 [3, 1, 2] [[0], [0, 1], [0, 2], [1, 2]] 3 = some (Except.ok 4) ∧
    greedy_min_presses 10 [3, 1, 2] [[0], [0, 1], [0, 2], [1, 2]] 3 = some (Except.ok 3) ∧
    solve_machine_part2 [[0], [0, 1], [0, 2], [1, 2]] [3, 1, 2] = 3 ∧
    ¬((4 : Int) ≤ 3) :=
  ⟨rfl, rfl, by decide, by decide⟩

/-- C5: every state held in the A* frontier or recorded in the visited table
after any number of loop iterations is componentwise bounded by the targets;
overshooting transitions are pruned before materialization. -/
theorem claim_C5 (targets : List Nat) (buttons : List (List Nat)) (n : Nat)
    {h2 : List (Nat × Nat × List Nat)} {v2 : List (List Nat × Nat)}
    (hit : astarIter targets buttons n
      [(heuristic (List.replicate targets.length 0) targets, 0,
        List.replicate targets.length 0)]
      [(List.replicate targets.length 0, 0)] = some (h2, v2)) :
    (∀ e ∈ h2, BoundedState e.2.2 targets) ∧
      (∀ pr ∈ v2, BoundedState pr.1 targets) :=
  astar_states_bounded hit

/-- Witness for C5 on the one-counter machine with button `(0)`. -/
theorem claim_C5_witness :
    astarIter [1] [[0]] 0 [(1, 0, [0])] [([0], 0)] =
      some ([(1, 0, [0])], [([0], 0)]) ∧
    ((∀ e ∈ [((1 : Nat), (0 : Nat), [(0 : Nat)])], BoundedState e.2.2 [1]) ∧
      (∀ pr ∈ [([(0 : Nat)], (0 : Nat))], BoundedState pr.1 [1])) :=
  ⟨rfl, claim_C5 [1] [[0]] 0 rfl⟩

/-- C6 (corrected): on an unreachable target vector the A* search (with
in-range, non-empty buttons and fuel at or above its budget) exhausts its
frontier and returns the sentinel `-1`, distinct from every valid count; but
both exhaustive toggle solvers violate the guarantee — `find_min_presses`
coerces its no-solution case to 0, and `solve_machine_part1` likewise
returns the press count 0 on an infeasible system, see the counterexample. -/
theorem claim_C6 (targets : List Nat) (buttons : List (List Nat))
    (hrange : ∀ b ∈ buttons, ∀ ci ∈ b, ci < targets.length)
    (hne : ∀ b ∈ buttons, b ≠ [])
    (hinf : ¬ ∃ g : Nat, ReachedBy targets buttons targets g) :
    ∀ fuel : Nat, astarFuel targets ≤ fuel →
      astar_min_presses fuel targets buttons targets.length = some (Except.ok (-1)) :=
  astar_infeasible_exhausts hrange hne hinf

/-- Witness for C6 on the buttonless machine with target `{1}`. -/
theorem claim_C6_witness :
    (∀ b ∈ ([] : List (List Nat)), ∀ ci ∈ b, ci < 1) ∧
    (∀ b ∈ ([] : List (List Nat)), b ≠ []) ∧
    (¬ ∃ g : Nat, ReachedBy [1] [] [1] g) ∧ astarFuel [1] ≤ 6 ∧
    astar_min_presses 6 [1] [] 1 = some (Except.ok (-1)) :=
  ⟨by decide, by decide, no_buttons_unreachable, by decide,
    claim_C6 [1] [] (by decide) (by decide) no_buttons_unreachable 6 (by decide)⟩

/-- Counterexample to C6 as stated: the toggle system with one light, no
buttons and target `[#]` has no solution, yet `find_min_presses` returns the
press count 0 instead of a failure sentinel, and `solve_machine_part1`
returns the press count 0 on the same infeasible system. -/
theorem claim_C6_counterexample :
    find_min_presses [true] [] 1 = some 0 ∧
      solve_machine_part1 [] [true] = 0 ∧
      ∀ x : List Bool, ¬ SolvesL [] [true] x :=
  ⟨by decide, by decide, fun x hx =>
    Bool.noConfusion (show false = true from hx 0 (by decide))⟩

/-- C7 (corrected): the exact backend `solve_machine_part2` treats slot
indices at or beyond the target length as inert — deleting them from every
button leaves its result unchanged; but the A* and greedy solvers raise
`IndexError` on such indices instead of returning normally, see the
counterexample. -/
theorem claim_C7 (buttons : List (List Nat)) (targets : List Nat) :
    solve_machine_part2 (buttons.map fun b => b.filter fun v => decide (v < targets.length))
        targets = solve_machine_part2 buttons targets := by
  unfold solve_machine_part2
  rw [List.length_map]
  have hfc : (allVecs buttons.length (targets.sum + 1)).filter
      (fun x => decide (FeasibleILP
        (buttons.map fun b => b.filter fun v => decide (v < targets.length)) targets x)) =
      (allVecs buttons.length (targets.sum + 1)).filter
      (fun x => decide (FeasibleILP buttons targets x)) := by
    apply List.filter_congr
    intro x _
    exact decide_eq_decide.mpr (feasibleILP_filter_iff buttons targets x)
  rw [hfc]

/-- Counterexample to C7 as stated: on the one-counter machine whose single
button references slot 7, both the A* search and the greedy solver raise
`IndexError` instead of treating the index as inert. -/
theorem claim_C7_counterexample :
    astar_min_presses 5 [1] [[7]] 1 = some (Except.error ()) ∧
      greedy_min_presses 5 [1] [[7]] 1 = some (Except.error ()) :=
  ⟨rfl, rfl⟩

/-- C8 (code bug): a line with no `[...]` group makes `parse_machine` return
the two-element `None, None`, and `solve_factory`'s three-name unpacking of
that pair raises `ValueError` — the driver aborts instead of skipping the
malformed line, and the remaining lines are not processed (the same lines
alone are handled fine); `day10_complete.py`'s `parse_line` likewise raises
`AttributeError` on a line missing its `{...}` group. -/
theorem claim_C8 :
    parse_machine facBadLine = FacParse.nonePair ∧
    solve_factory [facBadLine, facGoodLine] = Except.error () ∧
    solve_factory [facGoodLine] = Except.ok (1, 1) ∧
    parse_line facGoodLine = Except.error () :=
  ⟨by decide, rfl, rfl, rfl⟩

/-- C9: with non-empty, duplicate-free, in-range buttons and enough fuel to
cover the total target sum, the greedy solver terminates with a result:
either the failure sentinel `-1`, or a press count realized by a legal press
sequence reaching the targets. -/
theorem claim_C9 (targets : List Nat) (buttons : List (List Nat)) (fuel : Nat)
    (hnodup : ∀ b ∈ buttons, b.Nodup)
    (hrange : ∀ b ∈ buttons, ∀ ci ∈ b, ci < targets.length)
    (hnonempty : ∀ b ∈ buttons, b ≠ [])
    (hfuel : targets.sum < fuel) :
    ∃ r, greedy_min_presses fuel targets buttons targets.length = some r ∧
      (r = Except.ok (-1) ∨
        ∃ n : Nat, r = Except.ok (n : Int) ∧ ReachedBy targets buttons targets n) := by
  have hsum0 : (List.replicate targets.length 0).sum = 0 := by simp
  rcases greedyLoop_spec hnodup hrange hnonempty fuel (List.replicate targets.length 0) 0
      (by simp) (boundedState_replicate_zero targets) (by rw [hsum0]; omega)
      ⟨[], rfl, rfl⟩ with ⟨r, hr, hcase⟩
  exact ⟨r, hr, hcase⟩

/-- Witness for C9 on the machine with targets `{1,2}` and buttons `(0) (1)`. -/
theorem claim_C9_witness :
    (∀ b ∈ [[0], [1]], List.Nodup b) ∧ (∀ b ∈ [[0], [1]], ∀ ci ∈ b, ci < 2) ∧
    (∀ b ∈ [[0], [1]], b ≠ ([] : List Nat)) ∧ (List.sum [1, 2] < 4) ∧
    (∃ r, greedy_min_presses 4 [1, 2] [[0], [1]] 2 = some r ∧
      (r = Except.ok (-1) ∨
        ∃ n : Nat, r = Except.ok (n : Int) ∧ ReachedBy [1, 2] [[0], [1]] [1, 2] n)) :=
  ⟨by decide, by decide, by decide, by decide,
    claim_C9 [1, 2] [[0], [1]] 4 (by decide) (by decide) (by decide) (by decide)⟩

/-- C10: for a machine with duplicate-free, in-range buttons whose toggle
system is solvable, the exhaustive subset search `find_min_presses` and the
Gaussian-elimination solver `solve_machine_part1` agree. -/
theorem claim_C10 (buttons : List (List Nat)) (target : List Bool)
    (hnodup : ∀ b ∈ buttons, b.Nodup)
    (hrange : ∀ b ∈ buttons, ∀ i ∈ b, i < target.length)
    (hcons : ∃ x : List Bool, x.length = buttons.length ∧ SolvesL buttons target x) :
    find_min_presses target buttons target.length =
      some (solve_machine_part1 buttons target) :=
  find_min_eq_solve_part1 hnodup hrange hcons

/-- Witness for C10 on the machine with buttons `(0) (1) (0,1)` and
target `[##]`. -/
theorem claim_C10_witness :
    (∀ b ∈ [[0], [1], [0, 1]], List.Nodup b) ∧
    (∀ b ∈ [[0], [1], [0, 1]], ∀ i ∈ b, i < 2) ∧
    (∃ x : List Bool, x.length = 3 ∧ SolvesL [[0], [1], [0, 1]] [true, true] x) ∧
    find_min_presses [true, true] [[0], [1], [0, 1]] 2 =
      some (solve_machine_part1 [[0], [1], [0, 1]] [true, true]) :=
  ⟨by decide, by decide, ⟨[true, true, false], rfl, by decide⟩,
    claim_C10 [[0], [1], [0, 1]] [true, true] (by decide) (by decide)
      ⟨[true, true, false], rfl, by decide⟩⟩

end Day10

